import Mathlib

/-!
Verification of the register-machine interpreter and peephole optimizer from
`src/day_18.rs` and `src/day_23.rs` (Advent of Code 2017 solutions).

The embedding is shallow: Rust `i64` values become `ℤ` with explicit range
checks mirroring `checked_add` / `checked_sub` / `checked_mul` / `checked_rem`;
a Rust panic is modelled as `Option.none`; `usize` index arithmetic
(`checked_add_signed`, `saturating_add_signed`) is modelled over `ℕ`/`ℤ` with
the 64-bit bounds written out.  Each definition mirrors the corresponding Rust
item, and is named after it where possible.
-/

/-- Lower bound of Rust `i64`. -/
def minI64 : ℤ := -(2 ^ 63)

/-- Upper bound of Rust `i64`. -/
def maxI64 : ℤ := 2 ^ 63 - 1

/-- Membership in the `i64` range. -/
def inI64 (x : ℤ) : Prop := minI64 ≤ x ∧ x ≤ maxI64

instance (x : ℤ) : Decidable (inI64 x) := by unfold inI64; infer_instance

/-- Rust `i64::checked_add`: `none` exactly when the mathematical sum leaves
the `i64` range (for in-range operands). -/
def checkedAdd (a b : ℤ) : Option ℤ :=
  if inI64 (a + b) then some (a + b) else none

/-- Rust `i64::checked_sub`. -/
def checkedSub (a b : ℤ) : Option ℤ :=
  if inI64 (a - b) then some (a - b) else none

/-- Rust `i64::checked_mul`. -/
def checkedMul (a b : ℤ) : Option ℤ :=
  if inI64 (a * b) then some (a * b) else none

/-- Rust `i64::checked_rem`: `none` when the divisor is zero or for
`i64::MIN % -1`; otherwise the truncated (toward-zero) remainder, which Rust's
`%` computes and `Int.tmod` matches. -/
def checkedRem (a b : ℤ) : Option ℤ :=
  if b = 0 ∨ (a = minI64 ∧ b = -1) then none else some (Int.tmod a b)

/-- Rust `usize::checked_add_signed` on a 64-bit platform (used for jump
targets): `none` when the signed sum leaves `[0, 2^64)`. -/
def checkedAddSigned (j : ℕ) (v : ℤ) : Option ℕ :=
  if 0 ≤ (j : ℤ) + v ∧ (j : ℤ) + v < 2 ^ 64 then some ((j : ℤ) + v).toNat else none

/-- Rust `usize::saturating_add_signed` on a 64-bit platform (used in the
optimizer's jump-crossing tests). -/
def satAddSigned (j : ℕ) (v : ℤ) : ℕ :=
  (min (max ((j : ℤ) + v) 0) (2 ^ 64 - 1)).toNat

namespace Day23

/-- `Reg` from day 23: the eight registers `a`..`h`. -/
inductive Reg where
  | A | B | C | D | E | F | G | H
deriving DecidableEq, Repr

/-- `RegOrValue` from day 23. -/
inductive RegOrValue where
  | reg (r : Reg)
  | value (v : ℤ)
deriving DecidableEq, Repr

/-- `BinOp` from day 23: `set`, `sub`, `mul`, `mod`. -/
inductive BinOp where
  | set | sub | mul | mod
deriving DecidableEq, Repr

/-- `BinOp::apply` from day 23; `none` models the `expect("overflow")` panic. -/
def BinOp.apply : BinOp → ℤ → ℤ → Option ℤ
  | .set, _, rhs => some rhs
  | .sub, t, rhs => checkedSub t rhs
  | .mul, t, rhs => checkedMul t rhs
  | .mod, t, rhs => checkedRem t rhs

/-- `Instruction` from day 23. -/
inductive Instruction where
  | binOp (op : BinOp) (reg : Reg) (src : RegOrValue)
  | jnz (check : RegOrValue) (delta : RegOrValue)
deriving DecidableEq, Repr

/-- The register file `[i64; 8]` from day 23, with one named field per
register. -/
structure Regs where
  a : ℤ
  b : ℤ
  c : ℤ
  d : ℤ
  e : ℤ
  f : ℤ
  g : ℤ
  h : ℤ
deriving DecidableEq, Repr

/-- Register file lookup (`Index<Reg> for Machine`). -/
def Regs.get (r : Regs) : Reg → ℤ
  | .A => r.a
  | .B => r.b
  | .C => r.c
  | .D => r.d
  | .E => r.e
  | .F => r.f
  | .G => r.g
  | .H => r.h

/-- Register file store (`IndexMut<Reg> for Machine`). -/
def Regs.set (r : Regs) : Reg → ℤ → Regs
  | .A, v => { r with a := v }
  | .B, v => { r with b := v }
  | .C, v => { r with c := v }
  | .D, v => { r with d := v }
  | .E, v => { r with e := v }
  | .F, v => { r with f := v }
  | .G, v => { r with g := v }
  | .H, v => { r with h := v }

/-- The all-zero register file of `Machine::new`. -/
def Regs.zero : Regs := ⟨0, 0, 0, 0, 0, 0, 0, 0⟩

/-- `State` from day 23. -/
inductive MState where
  | pending | stopped
deriving DecidableEq, Repr

/-- `Machine` from day 23. -/
structure Machine where
  instructions : List Instruction
  state : MState
  ip : ℕ
  registers : Regs
  mulCount : ℕ
deriving DecidableEq, Repr

/-- `Machine::new` from day 23. -/
def Machine.new (instructions : List Instruction) : Machine :=
  ⟨instructions, .pending, 0, Regs.zero, 0⟩

/-- `Machine::get_value` from day 23. -/
def Machine.getValue (m : Machine) : RegOrValue → ℤ
  | .reg r => m.registers.get r
  | .value v => v

/-- `Machine::step` from day 23; `none` models an arithmetic-overflow panic. -/
def Machine.step (m : Machine) : Option Machine :=
  if m.state ≠ .pending then some m
  else
    match m.instructions[m.ip]? with
    | none => some { m with state := .stopped }
    | some (.binOp op reg src) =>
        match op.apply (m.registers.get reg) (m.getValue src) with
        | none => none
        | some v =>
            some { m with
                    registers := m.registers.set reg v,
                    mulCount := if op = .mul then m.mulCount + 1 else m.mulCount,
                    ip := m.ip + 1 }
    | some (.jnz check delta) =>
        if m.getValue check ≠ 0 then
          match checkedAddSigned m.ip (m.getValue delta) with
          | some newIp =>
              if newIp < m.instructions.length then some { m with ip := newIp }
              else some { m with state := .stopped, ip := m.ip + 1 }
          | none => some { m with state := .stopped, ip := m.ip + 1 }
        else some { m with ip := m.ip + 1 }

/-- Fuel-indexed version of `Machine::run` from day 23 (`while state == Pending
{ step() }`): `none` when the fuel runs out while still pending, or when a step
panics. -/
def Machine.run : ℕ → Machine → Option Machine
  | 0, m => if m.state = .pending then none else some m
  | fuel + 1, m =>
      if m.state = .pending then m.step >>= Machine.run fuel else some m

/-- `m` reaches `m'` by a sequence of (non-panicking) `step`s from pending
states. -/
inductive Reaches : Machine → Machine → Prop where
  | refl (m : Machine) : Reaches m m
  | head {m m' m'' : Machine} (h1 : m.state = .pending) (h2 : m.step = some m')
      (h3 : Reaches m' m'') : Reaches m m''

theorem Reaches.trans {m1 m2 m3 : Machine} (h1 : Reaches m1 m2)
    (h2 : Reaches m2 m3) : Reaches m1 m3 := by
  induction h1 with
  | refl => exact h2
  | head ha hb _ ih => exact .head ha hb (ih h2)

theorem Reaches.single {m m' : Machine} (h1 : m.state = .pending)
    (h2 : m.step = some m') : Reaches m m' :=
  .head h1 h2 (.refl m')

/-- A completed `Reaches` chain is realized by `run` with enough fuel. -/
theorem run_of_reaches {m m' : Machine} (h : Reaches m m')
    (hstop : m'.state ≠ .pending) : ∃ fuel, Machine.run fuel m = some m' := by
  induction h with
  | refl m => exact ⟨0, by simp [Machine.run, hstop]⟩
  | head h1 h2 _ ih =>
      obtain ⟨fuel, hf⟩ := ih hstop
      exact ⟨fuel + 1, by simp [Machine.run, h1, h2, hf]⟩

end Day23

namespace Day23

/-- The 14-instruction `target` template from `optimize` in day 23. -/
def targetList : List Instruction :=
  [ .binOp .set .E (.value 2),
    .binOp .set .G (.reg .D),
    .binOp .mul .G (.reg .E),
    .binOp .sub .G (.reg .B),
    .jnz (.reg .G) (.value 2),
    .binOp .set .F (.value 0),
    .binOp .sub .E (.value (-1)),
    .binOp .set .G (.reg .E),
    .binOp .sub .G (.reg .B),
    .jnz (.reg .G) (.value (-8)),
    .binOp .sub .D (.value (-1)),
    .binOp .set .G (.reg .D),
    .binOp .sub .G (.reg .B),
    .jnz (.reg .G) (.value (-13)) ]

/-- The 9-instruction `replacement` sequence from `optimize` in day 23. -/
def replacementList : List Instruction :=
  [ .binOp .set .G (.reg .B),
    .binOp .mod .G (.reg .D),
    .jnz (.reg .G) (.value 3),
    .binOp .set .F (.value 0),
    .jnz (.value 1) (.value 4),
    .binOp .sub .D (.value (-1)),
    .binOp .set .G (.reg .D),
    .binOp .sub .G (.reg .B),
    .jnz (.reg .G) (.value (-8)) ]

/-- `replacement.len() - target.len()` as an `i64` (the jump-offset
adjustment applied by `optimize`). -/
def offsetDelta : ℤ := (replacementList.length : ℤ) - (targetList.length : ℤ)

/-- `RegisterMapping` from day 23: the `forward` and `reverse` arrays,
modelled as total maps to `Option Reg`. -/
structure RegisterMapping where
  forward : Reg → Option Reg
  reverse : Reg → Option Reg

/-- `RegisterMapping::new` (the `Default` derive: both arrays all `None`). -/
def RegisterMapping.new : RegisterMapping := ⟨fun _ => none, fun _ => none⟩

/-- `RegisterMapping::try_insert`: the returned `Bool` is the Rust return
value, the returned mapping is the (possibly updated) `self`. -/
def RegisterMapping.tryInsert (m : RegisterMapping) (reg1 reg2 : Reg) :
    Bool × RegisterMapping :=
  match m.forward reg1, m.reverse reg2 with
  | some f, some r => if f = reg2 ∧ r = reg1 then (true, m) else (false, m)
  | none, none =>
      (true,
        ⟨fun x => if x = reg1 then some reg2 else m.forward x,
         fun x => if x = reg2 then some reg1 else m.reverse x⟩)
  | _, _ => (false, m)

/-- `RegisterMapping::reverse_reg`. -/
def RegisterMapping.reverseReg (m : RegisterMapping) (reg : Reg) : Option Reg :=
  m.reverse reg

/-- `RegisterMapping::reverse_reg_or_value`. -/
def RegisterMapping.reverseRegOrValue (m : RegisterMapping) :
    RegOrValue → Option RegOrValue
  | .value v => some (.value v)
  | .reg r => (m.reverseReg r).map .reg

/-- First `match` block in the loop body of `extract_register_mapping`
(opcode tags and first operands). -/
def matchFst (mp : RegisterMapping) : Instruction → Instruction → Option RegisterMapping
  | .binOp op1 reg1 _, .binOp op2 reg2 _ =>
      if op1 = op2 then
        match mp.tryInsert reg1 reg2 with
        | (true, mp') => some mp'
        | (false, _) => none
      else none
  | .jnz (.reg reg1) _, .jnz (.reg reg2) _ =>
      match mp.tryInsert reg1 reg2 with
      | (true, mp') => some mp'
      | (false, _) => none
  | .jnz (.value _) _, .jnz (.value _) _ => some mp
  | _, _ => none

/-- Second `match` block in the loop body of `extract_register_mapping`
(second operands). -/
def matchSnd (mp : RegisterMapping) : Instruction → Instruction → Option RegisterMapping
  | .binOp op1 _ (.reg reg1), .binOp op2 _ (.reg reg2) =>
      if op1 = op2 then
        match mp.tryInsert reg1 reg2 with
        | (true, mp') => some mp'
        | (false, _) => none
      else none
  | .binOp op1 _ (.value _), .binOp op2 _ (.value _) =>
      if op1 = op2 then some mp else none
  | .jnz _ (.reg reg1), .jnz _ (.reg reg2) =>
      match mp.tryInsert reg1 reg2 with
      | (true, mp') => some mp'
      | (false, _) => none
  | .jnz _ (.value _), .jnz _ (.value _) => some mp
  | _, _ => none

/-- The zipped iteration of `extract_register_mapping`. -/
def unifyPairs : List (Instruction × Instruction) → RegisterMapping →
    Option RegisterMapping
  | [], mp => some mp
  | (x, y) :: rest, mp => do
      let mp1 ← matchFst mp x y
      let mp2 ← matchSnd mp1 x y
      unifyPairs rest mp2

/-- `extract_register_mapping` from day 23 (note: `zip` truncates to the
shorter of the two sequences, as in the Rust iterator). -/
def extractRegisterMapping (instructions target : List Instruction) :
    Option RegisterMapping :=
  unifyPairs (instructions.zip target) RegisterMapping.new

/-- The window scan `for i in 0..instructions.len() - target.len()` of
`optimize`: first offset (together with its mapping) whose window unifies,
trying `count` offsets starting at `i`. -/
def findIdx (instrs : List Instruction) : ℕ → ℕ → Option (ℕ × RegisterMapping)
  | _, 0 => none
  | i, count + 1 =>
      match extractRegisterMapping (instrs.drop i) targetList with
      | some mp => some (i, mp)
      | none => findIdx instrs (i + 1) count

/-- Prefix fix-up of `optimize`: a jump at position `j` (before the window at
`i`) whose saturated absolute target lies at or beyond the window's end gets
its offset shifted by `replacement.len() - target.len()`. -/
def fixPre (i j : ℕ) : Instruction → Instruction
  | .jnz c (.value v) =>
      if i + targetList.length ≤ satAddSigned j v then .jnz c (.value (v + offsetDelta))
      else .jnz c (.value v)
  | ins => ins

/-- Suffix fix-up of `optimize`: a jump at original position `j` (at or after
the window's end) whose saturated absolute target lies before the window's
start gets its offset shifted by `-(replacement.len() - target.len())`. -/
def fixSuf (i j : ℕ) : Instruction → Instruction
  | .jnz c (.value v) =>
      if satAddSigned j v < i then .jnz c (.value (v - offsetDelta))
      else .jnz c (.value v)
  | ins => ins

/-- Map a function over a list together with the (global) index of each
element, the first element having index `start`. -/
def mapIdxFrom (fn : ℕ → Instruction → Instruction) :
    ℕ → List Instruction → List Instruction
  | _, [] => []
  | start, x :: xs => fn start x :: mapIdxFrom fn (start + 1) xs

/-- Translation of one replacement instruction: every register operand passed
through the reverse mapping (`unwrap` panics become `none`). -/
def translateIns (mp : RegisterMapping) : Instruction → Option Instruction
  | .binOp op reg val => do
      let reg' ← mp.reverseReg reg
      let val' ← mp.reverseRegOrValue val
      pure (.binOp op reg' val')
  | .jnz cond delta => do
      let cond' ← mp.reverseRegOrValue cond
      let delta' ← mp.reverseRegOrValue delta
      pure (.jnz cond' delta')

/-- The `for &instr in &replacement` push loop of `optimize`. -/
def translateAll (mp : RegisterMapping) : List Instruction → Option (List Instruction)
  | [] => some []
  | ins :: rest => do
      let ins' ← translateIns mp ins
      let rest' ← translateAll mp rest
      pure (ins' :: rest')

/-- The middle section of the rewritten program. -/
def mapRepl (mp : RegisterMapping) : Option (List Instruction) :=
  translateAll mp replacementList

/-- The rewritten program built by `optimize` once the window at `i` has
unified with mapping `mp`. -/
def buildResult (instrs : List Instruction) (i : ℕ) (mp : RegisterMapping) :
    Option (List Instruction) := do
  let mid ← mapRepl mp
  pure (mapIdxFrom (fixPre i) 0 (instrs.take i) ++ mid ++
    mapIdxFrom (fixSuf i) (i + targetList.length) (instrs.drop (i + targetList.length)))

/-- `optimize` from day 23; `none` models the `panic!("Target not found!")`
(and the `unwrap` panics while translating the replacement). -/
def optimize (instrs : List Instruction) : Option (List Instruction) :=
  match findIdx instrs 0 (instrs.length - targetList.length) with
  | some (i, mp) => buildResult instrs i mp
  | none => none

end Day23

namespace Day18

/-- `Reg` from day 18: the seven registers `a`, `b`, `c`, `d`, `f`, `i`, `p`. -/
inductive Reg where
  | A | B | C | D | F | I | P
deriving DecidableEq, Repr

/-- `RegOrValue` from day 18. -/
inductive RegOrValue where
  | reg (r : Reg)
  | value (v : ℤ)
deriving DecidableEq, Repr

/-- `BinOp` from day 18: `set`, `add`, `mul`, `mod`. -/
inductive BinOp where
  | set | add | mul | mod
deriving DecidableEq, Repr

/-- `BinOp::apply` from day 18; `none` models the `expect("overflow")` panic. -/
def BinOp.apply : BinOp → ℤ → ℤ → Option ℤ
  | .set, _, rhs => some rhs
  | .add, t, rhs => checkedAdd t rhs
  | .mul, t, rhs => checkedMul t rhs
  | .mod, t, rhs => checkedRem t rhs

/-- `Instruction` from day 18. -/
inductive Instruction where
  | snd (src : RegOrValue)
  | binOp (op : BinOp) (reg : Reg) (src : RegOrValue)
  | rcv (reg : Reg)
  | jgz (check : RegOrValue) (delta : RegOrValue)
deriving DecidableEq, Repr

/-- The register file `[i64; 7]` from day 18, one named field per register. -/
structure Regs where
  a : ℤ
  b : ℤ
  c : ℤ
  d : ℤ
  f : ℤ
  i : ℤ
  p : ℤ
deriving DecidableEq, Repr

/-- Register file lookup (`Index<Reg> for Machine`). -/
def Regs.get (r : Regs) : Reg → ℤ
  | .A => r.a
  | .B => r.b
  | .C => r.c
  | .D => r.d
  | .F => r.f
  | .I => r.i
  | .P => r.p

/-- Register file store (`IndexMut<Reg> for Machine`). -/
def Regs.set (r : Regs) : Reg → ℤ → Regs
  | .A, v => { r with a := v }
  | .B, v => { r with b := v }
  | .C, v => { r with c := v }
  | .D, v => { r with d := v }
  | .F, v => { r with f := v }
  | .I, v => { r with i := v }
  | .P, v => { r with p := v }

/-- The all-zero register file of `Machine::new`. -/
def Regs.zero : Regs := ⟨0, 0, 0, 0, 0, 0, 0⟩

/-- `State` from day 18. -/
inductive MState where
  | pending | waitingForInput | stopped
deriving DecidableEq, Repr

/-- `Machine` from day 18.  The `VecDeque` queues become lists with
`push_back` appending at the tail and `pop_front` taking the head. -/
structure Machine where
  instructions : List Instruction
  rcvNonzero : Bool
  state : MState
  ip : ℕ
  registers : Regs
  outputQueue : List ℤ
  outputCount : ℕ
  inputQueue : List ℤ
deriving DecidableEq, Repr

/-- `Machine::new` from day 18. -/
def Machine.new (instructions : List Instruction) (rcvNonzero : Bool) : Machine :=
  ⟨instructions, rcvNonzero, .pending, 0, Regs.zero, [], 0, []⟩

/-- `Machine::get_value` from day 18. -/
def Machine.getValue (m : Machine) : RegOrValue → ℤ
  | .reg r => m.registers.get r
  | .value v => v

/-- The wake-up check at the top of `step` (and of `run`): a machine waiting
for input becomes pending once its input queue is non-empty. -/
def Machine.revive (m : Machine) : Machine :=
  if m.state = .waitingForInput ∧ m.inputQueue ≠ [] then { m with state := .pending }
  else m

/-- `Machine::step` from day 18; `none` models an arithmetic-overflow panic. -/
def Machine.step (m0 : Machine) : Option Machine :=
  let m := m0.revive
  if m.state ≠ .pending then some m
  else
    match m.instructions[m.ip]? with
    | none => some { m with state := .stopped }
    | some (.snd src) =>
        some { m with
                outputCount := m.outputCount + 1,
                outputQueue := m.outputQueue ++ [m.getValue src],
                ip := m.ip + 1 }
    | some (.binOp op reg src) =>
        match op.apply (m.registers.get reg) (m.getValue src) with
        | none => none
        | some v =>
            some { m with registers := m.registers.set reg v, ip := m.ip + 1 }
    | some (.rcv reg) =>
        if m.rcvNonzero = false ∨ m.registers.get reg ≠ 0 then
          match m.inputQueue with
          | rcvValue :: rest =>
              some { m with
                      registers := m.registers.set reg rcvValue,
                      inputQueue := rest,
                      ip := m.ip + 1 }
          | [] => some { m with state := .waitingForInput }
        else some { m with ip := m.ip + 1 }
    | some (.jgz check delta) =>
        if m.getValue check > 0 then
          match checkedAddSigned m.ip (m.getValue delta) with
          | some newIp =>
              if newIp < m.instructions.length then some { m with ip := newIp }
              else some { m with state := .stopped, ip := m.ip + 1 }
          | none => some { m with state := .stopped, ip := m.ip + 1 }
        else some { m with ip := m.ip + 1 }

/-- The `while state == Pending` loop body of `run`, fuel-indexed. -/
def Machine.runAux : ℕ → Machine → Option Machine
  | 0, m => if m.state = .pending then none else some m
  | fuel + 1, m =>
      if m.state = .pending then m.step >>= Machine.runAux fuel else some m

/-- Fuel-indexed version of `Machine::run` from day 18: wake a waiting machine
whose queue is non-empty, then step while pending. -/
def Machine.run (fuel : ℕ) (m : Machine) : Option Machine :=
  Machine.runAux fuel m.revive

/-- The queue relaying at the top of the `part_2` scheduler loop: each
machine's output queue is drained into the other machine's input queue. -/
def relay (m0 m1 : Machine) : Machine × Machine :=
  ({ m0 with inputQueue := m0.inputQueue ++ m1.outputQueue, outputQueue := [] },
   { m1 with inputQueue := m1.inputQueue ++ m0.outputQueue, outputQueue := [] })

/-- One iteration of the `part_2` scheduler loop: relay the queues, then
either resume a machine that is waiting with a non-empty input queue
(`.inl` = continue looping) or return machine 1's send count (`.inr`). -/
def schedulerStep (fuel : ℕ) (m0 m1 : Machine) :
    Option ((Machine × Machine) ⊕ ℕ) :=
  let p := relay m0 m1
  if p.1.state = .waitingForInput ∧ p.1.inputQueue ≠ [] then
    (Machine.run fuel p.1).map fun x => .inl (x, p.2)
  else if p.2.state = .waitingForInput ∧ p.2.inputQueue ≠ [] then
    (Machine.run fuel p.2).map fun x => .inl (p.1, x)
  else some (.inr p.2.outputCount)

/-- The `loop` of `part_2`, iterated at most `iters` times. -/
def schedulerLoop : ℕ → ℕ → Machine → Machine → Option ℕ
  | 0, _, _, _ => none
  | iters + 1, fuel, m0, m1 =>
      match schedulerStep fuel m0 m1 with
      | none => none
      | some (.inl (m0', m1')) => schedulerLoop iters fuel m0' m1'
      | some (.inr c) => some c

/-- Fuel-indexed model of `part_2` from day 18: run both machines (with
register `p` preset to 0 and 1), then loop the scheduler. -/
def part2 (fuel iters : ℕ) (instructions : List Instruction) : Option ℕ := do
  let m0 ← Machine.run fuel { Machine.new instructions false with
                                registers := Regs.zero.set .P 0 }
  let m1 ← Machine.run fuel { Machine.new instructions false with
                                registers := Regs.zero.set .P 1 }
  schedulerLoop iters fuel m0 m1

/-- Operand resolution against a bare register file (used to state the
straight-line-program property). -/
def valueIn (r : Regs) : RegOrValue → ℤ
  | .reg x => r.get x
  | .value v => v

/-- A day-18 instruction that neither jumps nor blocks. -/
def straightLine : Instruction → Prop
  | .jgz _ _ => False
  | .rcv _ => False
  | _ => True

/-- Direct evaluation of a jump-free, receive-free day-18 program on a
register file (`snd` does not touch registers). -/
def straightEval : List Instruction → Regs → Option Regs
  | [], r => some r
  | .snd _ :: rest, r => straightEval rest r
  | .binOp op reg src :: rest, r =>
      match op.apply (r.get reg) (valueIn r src) with
      | none => none
      | some v => straightEval rest (r.set reg v)
  | .rcv _ :: _, _ => none
  | .jgz _ _ :: _, _ => none

end Day18

namespace Day23

/-- Operand resolution against a bare register file. -/
def valueIn (r : Regs) : RegOrValue → ℤ
  | .reg x => r.get x
  | .value v => v

/-- A day-23 instruction that does not jump (day 23 has no blocking
instruction). -/
def straightLine : Instruction → Prop
  | .jnz _ _ => False
  | _ => True

/-- Direct evaluation of a jump-free day-23 program on a register file. -/
def straightEval : List Instruction → Regs → Option Regs
  | [], r => some r
  | .binOp op reg src :: rest, r =>
      match op.apply (r.get reg) (valueIn r src) with
      | none => none
      | some v => straightEval rest (r.set reg v)
  | .jnz _ _ :: _, _ => none

end Day23

namespace Day23

/-- States of `RegisterMapping` reachable by `try_insert` calls from the
fresh mapping. -/
inductive RMReach : RegisterMapping → Prop where
  | new : RMReach RegisterMapping.new
  | ins (m : RegisterMapping) (a b : Reg) :
      RMReach m → RMReach (m.tryInsert a b).2

/-- The forward/reverse arrays agree: `forward[a] = b` iff `reverse[b] = a`. -/
def Consistent (m : RegisterMapping) : Prop :=
  ∀ a b : Reg, m.forward a = some b ↔ m.reverse b = some a

theorem tryInsert_fst_true {m : RegisterMapping} {a b : Reg}
    (h : (m.tryInsert a b).1 = true) :
    (m.tryInsert a b).2.forward a = some b ∧
      (m.tryInsert a b).2.reverse b = some a := by
  unfold RegisterMapping.tryInsert at h ⊢
  rcases hf : m.forward a with _ | f <;> rcases hr : m.reverse b with _ | r <;>
      simp only [hf, hr] at h ⊢
  · simp
  · simp at h
  · simp at h
  · by_cases hg : f = b ∧ r = a
    · rw [if_pos hg]
      exact ⟨by rw [hf, hg.1], by rw [hr, hg.2]⟩
    · rw [if_neg hg] at h
      simp at h

theorem tryInsert_fst_false {m : RegisterMapping} {a b : Reg}
    (h : (m.tryInsert a b).1 = false) : (m.tryInsert a b).2 = m := by
  unfold RegisterMapping.tryInsert at h ⊢
  rcases hf : m.forward a with _ | f <;> rcases hr : m.reverse b with _ | r <;>
      simp only [hf, hr] at h ⊢
  all_goals first
    | rfl
    | (split <;> rfl)
    | simp at h

theorem tryInsert_of_agree {m : RegisterMapping} {a b : Reg}
    (hf : m.forward a = some b) (hr : m.reverse b = some a) :
    m.tryInsert a b = (true, m) := by
  unfold RegisterMapping.tryInsert
  simp only [hf, hr, if_pos, and_self, reduceIte]

theorem tryInsert_conflict_fwd {m : RegisterMapping} {a b c : Reg}
    (hf : m.forward a = some b) (hne : c ≠ b) :
    m.tryInsert a c = (false, m) := by
  unfold RegisterMapping.tryInsert
  rcases hr : m.reverse c with _ | r <;> simp only [hf, hr]
  rw [if_neg]
  rintro ⟨h1, -⟩
  exact hne h1.symm

theorem tryInsert_conflict_rev {m : RegisterMapping} {a b d : Reg}
    (hr : m.reverse b = some a) (hne : d ≠ a) :
    m.tryInsert d b = (false, m) := by
  unfold RegisterMapping.tryInsert
  rcases hf : m.forward d with _ | f <;> simp only [hf, hr]
  rw [if_neg]
  rintro ⟨-, h2⟩
  exact hne h2.symm

theorem consistent_tryInsert {m : RegisterMapping} (hc : Consistent m)
    (a b : Reg) : Consistent (m.tryInsert a b).2 := by
  intro x y
  unfold RegisterMapping.tryInsert
  rcases hf : m.forward a with _ | f <;> rcases hr : m.reverse b with _ | r <;>
      simp only [hf, hr]
  · constructor
    · intro hfw
      by_cases hx : x = a
      · rw [if_pos hx] at hfw
        have hby : b = y := Option.some.inj hfw
        rw [if_pos hby.symm, hx]
      · rw [if_neg hx] at hfw
        have h2 := (hc x y).mp hfw
        by_cases hy : y = b
        · rw [hy, hr] at h2
          exact Option.noConfusion h2
        · rw [if_neg hy]
          exact h2
    · intro hrv
      by_cases hy : y = b
      · rw [if_pos hy] at hrv
        have hax : a = x := Option.some.inj hrv
        rw [if_pos hax.symm, hy]
      · rw [if_neg hy] at hrv
        have h2 := (hc x y).mpr hrv
        by_cases hx : x = a
        · rw [hx, hf] at h2
          exact Option.noConfusion h2
        · rw [if_neg hx]
          exact h2
  · exact hc x y
  · exact hc x y
  · split <;> exact hc x y

end Day23

/-- Claim C7: for every pair of int64 operands and every op in
{Add, Sub, Mul, Mod}, if the operation's result is not representable in
signed 64-bit arithmetic (overflow, or for Mod a division error: modulo by
zero or MIN % -1), `BinOp::apply` raises a fatal error (modelled as `none`)
rather than silently wrapping or saturating.  Day 18 provides Add/Mul/Mod,
day 23 provides Sub/Mul/Mod. -/
theorem binop_apply_overflow_fatal :
    (∀ a b : ℤ, inI64 a → inI64 b →
      (¬ inI64 (a + b) → Day18.BinOp.apply .add a b = none) ∧
      (¬ inI64 (a * b) → Day18.BinOp.apply .mul a b = none) ∧
      (b = 0 ∨ (a = minI64 ∧ b = -1) → Day18.BinOp.apply .mod a b = none)) ∧
    (∀ a b : ℤ, inI64 a → inI64 b →
      (¬ inI64 (a - b) → Day23.BinOp.apply .sub a b = none) ∧
      (¬ inI64 (a * b) → Day23.BinOp.apply .mul a b = none) ∧
      (b = 0 ∨ (a = minI64 ∧ b = -1) → Day23.BinOp.apply .mod a b = none)) := by
  constructor <;> intro a b _ _ <;> refine ⟨fun h => ?_, fun h => ?_, fun h => ?_⟩
  · rw [Day18.BinOp.apply, checkedAdd, if_neg h]
  · rw [Day18.BinOp.apply, checkedMul, if_neg h]
  · rw [Day18.BinOp.apply, checkedRem, if_pos h]
  · rw [Day23.BinOp.apply, checkedSub, if_neg h]
  · rw [Day23.BinOp.apply, checkedMul, if_neg h]
  · rw [Day23.BinOp.apply, checkedRem, if_pos h]

/-- Witness for C7 at the int64 boundaries: `MAX + 1`, `MIN - 1`, `MAX * 2`
and `MIN % -1` all panic. -/
theorem binop_apply_overflow_fatal_witness :
    Day18.BinOp.apply .add maxI64 1 = none ∧
    Day23.BinOp.apply .sub minI64 1 = none ∧
    Day18.BinOp.apply .mul maxI64 2 = none ∧
    Day23.BinOp.apply .mod minI64 (-1) = none :=
  ⟨(binop_apply_overflow_fatal.1 maxI64 1 (by decide) (by decide)).1 (by decide),
   (binop_apply_overflow_fatal.2 minI64 1 (by decide) (by decide)).1 (by decide),
   (binop_apply_overflow_fatal.1 maxI64 2 (by decide) (by decide)).2.1 (by decide),
   (binop_apply_overflow_fatal.2 minI64 (-1) (by decide) (by decide)).2.2 (by decide)⟩

/-- Claim C8: `RegisterMapping::try_insert` maintains a partial bijection:
after a successful `try_insert(a,b)`, inserting `(a,c)` with `c ≠ b` fails,
inserting `(d,b)` with `d ≠ a` fails, and re-inserting `(a,b)` succeeds
without change (idempotent); in every state reachable by `try_insert` calls,
`forward[a] = b` holds iff `reverse[b] = a`; and a rejected insertion leaves
the mapping unchanged. -/
theorem registerMapping_partial_bijection :
    (∀ (m : Day23.RegisterMapping) (a b : Day23.Reg),
      (m.tryInsert a b).1 = true →
      (∀ c, c ≠ b → ((m.tryInsert a b).2.tryInsert a c) = (false, (m.tryInsert a b).2)) ∧
      (∀ d, d ≠ a → ((m.tryInsert a b).2.tryInsert d b) = (false, (m.tryInsert a b).2)) ∧
      ((m.tryInsert a b).2.tryInsert a b) = (true, (m.tryInsert a b).2)) ∧
    (∀ m : Day23.RegisterMapping, Day23.RMReach m → Day23.Consistent m) ∧
    (∀ (m : Day23.RegisterMapping) (a b : Day23.Reg),
      (m.tryInsert a b).1 = false → (m.tryInsert a b).2 = m) := by
  refine ⟨?_, ?_, ?_⟩
  · intro m a b hsucc
    obtain ⟨hf, hr⟩ := Day23.tryInsert_fst_true hsucc
    exact ⟨fun c hc => Day23.tryInsert_conflict_fwd hf hc,
           fun d hd => Day23.tryInsert_conflict_rev hr hd,
           Day23.tryInsert_of_agree hf hr⟩
  · intro m hm
    induction hm with
    | new =>
        intro x y
        constructor <;> (intro h; exact Option.noConfusion h)
    | ins m a b _ ih => exact Day23.consistent_tryInsert ih a b
  · intro m a b
    exact Day23.tryInsert_fst_false

/-- Witness for C8: concrete partial-bijection behaviour starting from the
fresh mapping, plus consistency of a reachable state. -/
theorem registerMapping_partial_bijection_witness :
    ((Day23.RegisterMapping.new.tryInsert .A .B).2.tryInsert .A .C) =
      (false, (Day23.RegisterMapping.new.tryInsert .A .B).2) ∧
    Day23.Consistent (Day23.RegisterMapping.new.tryInsert .A .B).2 :=
  ⟨((registerMapping_partial_bijection.1 Day23.RegisterMapping.new .A .B
      (by decide)).1 .C (by decide)),
   registerMapping_partial_bijection.2.1 _
      (Day23.RMReach.ins Day23.RegisterMapping.new .A .B Day23.RMReach.new)⟩

namespace Day18

theorem revive_of_pending {m : Machine} (h : m.state = .pending) :
    m.revive = m := by
  unfold Machine.revive
  rw [if_neg]
  rintro ⟨h1, -⟩
  rw [h] at h1
  exact MState.noConfusion h1

end Day18

/-- Counterexample for C4: a day-18 machine in conditional mode
(`rcv_nonzero = true`) whose destination register is zero and whose input
queue is non-empty.  The claim says the front of the queue is popped into the
register; the code instead skips the receive (register and queue unchanged)
and advances the instruction pointer. -/
theorem rcv_step_claim_counterexample :
    Day18.Machine.step
        ⟨[.rcv .A], true, .pending, 0, Day18.Regs.zero, [], 0, [5]⟩ =
      some ⟨[.rcv .A], true, .pending, 1, Day18.Regs.zero, [], 0, [5]⟩ ∧
    ¬ (Day18.Machine.step
        ⟨[.rcv .A], true, .pending, 0, Day18.Regs.zero, [], 0, [5]⟩ =
      some ⟨[.rcv .A], true, .pending, 1, Day18.Regs.zero.set .A 5, [], 0, []⟩) := by
  constructor <;> decide

/-- Claim C4, amended: for a pending day-18 machine whose current instruction
is `Rcv reg`, with the blocking condition `!rcv_nonzero || registers[reg] != 0`:
if the blocking condition holds and the input queue is empty, `step` moves the
run-state to `WaitingForInput` without advancing the instruction pointer; if
the blocking condition holds and the queue is non-empty, `step` pops the front
of the queue into the register and advances; and if the blocking condition
does not hold (conditional mode with a zero register), `step` is a no-op on
registers and queue and merely advances the instruction pointer. -/
theorem rcv_step_behavior (m : Day18.Machine) (reg : Day18.Reg)
    (hpend : m.state = .pending)
    (hins : m.instructions[m.ip]? = some (.rcv reg)) :
    ((m.rcvNonzero = false ∨ m.registers.get reg ≠ 0) → m.inputQueue = [] →
      m.step = some { m with state := .waitingForInput }) ∧
    (∀ v rest, (m.rcvNonzero = false ∨ m.registers.get reg ≠ 0) →
      m.inputQueue = v :: rest →
      m.step = some { m with registers := m.registers.set reg v,
                              inputQueue := rest, ip := m.ip + 1 }) ∧
    (m.rcvNonzero = true → m.registers.get reg = 0 →
      m.step = some { m with ip := m.ip + 1 }) := by
  refine ⟨fun hblock hq => ?_, fun v rest hblock hq => ?_, fun hnz hzero => ?_⟩ <;>
    unfold Day18.Machine.step <;>
    rw [Day18.revive_of_pending hpend] <;>
    simp only [hpend, hins, ne_eq, not_true_eq_false, if_false, ite_false,
      reduceIte]
  · rw [if_pos hblock, hq]
  · rw [if_pos hblock, hq]
  · rw [if_neg]
    rw [hnz, hzero]
    simp

/-- Witness for C4 (amended): an always-blocking receive with an empty queue
suspends, and a conditional receive on a zero register skips. -/
theorem rcv_step_behavior_witness :
    Day18.Machine.step ⟨[.rcv .A], false, .pending, 0, Day18.Regs.zero, [], 0, []⟩ =
      some ⟨[.rcv .A], false, .waitingForInput, 0, Day18.Regs.zero, [], 0, []⟩ ∧
    Day18.Machine.step ⟨[.rcv .A], true, .pending, 0, Day18.Regs.zero, [], 0, [7]⟩ =
      some ⟨[.rcv .A], true, .pending, 1, Day18.Regs.zero, [], 0, [7]⟩ :=
  ⟨(rcv_step_behavior _ .A (by decide) (by decide)).1 (by decide) rfl,
   (rcv_step_behavior _ .A (by decide) (by decide)).2.2 (by decide) (by decide)⟩

/-- Claim C6: for a pending machine whose current instruction is a
conditional jump (day-18 `Jgz`, predicate "resolved condition > 0"; day-23
`Jnz`, predicate "resolved condition ≠ 0"): when the predicate holds and
`new_ip = ip + offset` lies in `[0, length)`, the instruction pointer becomes
`new_ip` with no auto-increment; when the predicate holds and the target is
outside `[0, length)`, the run-state becomes `Stopped`; when the predicate
fails, the instruction pointer advances by one.  (`length ≤ 2^64` reflects
`usize` indexing.) -/
theorem conditional_jump_step :
    (∀ (m : Day18.Machine) (check delta : Day18.RegOrValue),
      m.state = .pending →
      m.instructions[m.ip]? = some (.jgz check delta) →
      m.instructions.length ≤ 2 ^ 64 →
      (m.getValue check > 0 → 0 ≤ (m.ip : ℤ) + m.getValue delta →
        (m.ip : ℤ) + m.getValue delta < (m.instructions.length : ℤ) →
        m.step = some { m with ip := ((m.ip : ℤ) + m.getValue delta).toNat }) ∧
      (m.getValue check > 0 →
        ((m.ip : ℤ) + m.getValue delta < 0 ∨
          (m.instructions.length : ℤ) ≤ (m.ip : ℤ) + m.getValue delta) →
        m.step = some { m with state := .stopped, ip := m.ip + 1 }) ∧
      (¬ m.getValue check > 0 → m.step = some { m with ip := m.ip + 1 })) ∧
    (∀ (m : Day23.Machine) (check delta : Day23.RegOrValue),
      m.state = .pending →
      m.instructions[m.ip]? = some (.jnz check delta) →
      m.instructions.length ≤ 2 ^ 64 →
      (m.getValue check ≠ 0 → 0 ≤ (m.ip : ℤ) + m.getValue delta →
        (m.ip : ℤ) + m.getValue delta < (m.instructions.length : ℤ) →
        m.step = some { m with ip := ((m.ip : ℤ) + m.getValue delta).toNat }) ∧
      (m.getValue check ≠ 0 →
        ((m.ip : ℤ) + m.getValue delta < 0 ∨
          (m.instructions.length : ℤ) ≤ (m.ip : ℤ) + m.getValue delta) →
        m.step = some { m with state := .stopped, ip := m.ip + 1 }) ∧
      (¬ m.getValue check ≠ 0 → m.step = some { m with ip := m.ip + 1 })) := by
  constructor
  · intro m check delta hpend hins hlen
    refine ⟨fun hp h0 hlt => ?_, fun hp hout => ?_, fun hp => ?_⟩ <;>
      unfold Day18.Machine.step <;>
      rw [Day18.revive_of_pending hpend] <;>
      simp only [hpend, hins, ne_eq, not_true_eq_false, if_false, reduceIte]
    · have hc : checkedAddSigned m.ip (m.getValue delta) =
          some ((m.ip : ℤ) + m.getValue delta).toNat := by
        rw [checkedAddSigned, if_pos]
        exact ⟨h0, by omega⟩
      rw [if_pos hp]
      simp only [hc]
      rw [if_pos (by omega)]
    · rw [if_pos hp]
      rcases hout with hout | hout
      · have hc : checkedAddSigned m.ip (m.getValue delta) = none := by
          rw [checkedAddSigned, if_neg (by omega)]
        simp only [hc]
      · by_cases hbig : (m.ip : ℤ) + m.getValue delta < 2 ^ 64
        · have hc : checkedAddSigned m.ip (m.getValue delta) =
              some ((m.ip : ℤ) + m.getValue delta).toNat := by
            rw [checkedAddSigned, if_pos]
            exact ⟨by omega, hbig⟩
          simp only [hc]
          rw [if_neg (by omega)]
        · have hc : checkedAddSigned m.ip (m.getValue delta) = none := by
            rw [checkedAddSigned, if_neg (by omega)]
          simp only [hc]
    · rw [if_neg hp]
  · intro m check delta hpend hins hlen
    refine ⟨fun hp h0 hlt => ?_, fun hp hout => ?_, fun hp => ?_⟩ <;>
      unfold Day23.Machine.step <;>
      simp only [hpend, hins, ne_eq, not_true_eq_false, if_false, reduceIte]
    · have hc : checkedAddSigned m.ip (m.getValue delta) =
          some ((m.ip : ℤ) + m.getValue delta).toNat := by
        rw [checkedAddSigned, if_pos]
        exact ⟨h0, by omega⟩
      rw [if_pos hp]
      simp only [hc]
      rw [if_pos (by omega)]
    · rw [if_pos hp]
      rcases hout with hout | hout
      · have hc : checkedAddSigned m.ip (m.getValue delta) = none := by
          rw [checkedAddSigned, if_neg (by omega)]
        simp only [hc]
      · by_cases hbig : (m.ip : ℤ) + m.getValue delta < 2 ^ 64
        · have hc : checkedAddSigned m.ip (m.getValue delta) =
              some ((m.ip : ℤ) + m.getValue delta).toNat := by
            rw [checkedAddSigned, if_pos]
            exact ⟨by omega, hbig⟩
          simp only [hc]
          rw [if_neg (by omega)]
        · have hc : checkedAddSigned m.ip (m.getValue delta) = none := by
            rw [checkedAddSigned, if_neg (by omega)]
          simp only [hc]
    · rw [if_neg hp]

/-- Witness for C6: a taken in-bounds backward jump, a taken out-of-bounds
jump, and an untaken jump, on concrete programs. -/
theorem conditional_jump_step_witness :
    Day18.Machine.step
        ⟨[.snd (.value 0), .jgz (.value 1) (.value (-1))], true, .pending, 1,
          Day18.Regs.zero, [], 0, []⟩ =
      some ⟨[.snd (.value 0), .jgz (.value 1) (.value (-1))], true, .pending, 0,
          Day18.Regs.zero, [], 0, []⟩ ∧
    Day23.Machine.step
        ⟨[.jnz (.value 1) (.value 5)], .pending, 0, Day23.Regs.zero, 0⟩ =
      some ⟨[.jnz (.value 1) (.value 5)], .stopped, 1, Day23.Regs.zero, 0⟩ ∧
    Day23.Machine.step
        ⟨[.jnz (.value 0) (.value 5)], .pending, 0, Day23.Regs.zero, 0⟩ =
      some ⟨[.jnz (.value 0) (.value 5)], .pending, 1, Day23.Regs.zero, 0⟩ :=
  by
  refine ⟨?_, ?_, ?_⟩
  · have h := (conditional_jump_step.1
      ⟨[.snd (.value 0), .jgz (.value 1) (.value (-1))], true, .pending, 1,
        Day18.Regs.zero, [], 0, []⟩ (.value 1) (.value (-1)) (by decide)
      (by decide) (by decide)).1 (by decide) (by decide) (by decide)
    rw [h]
    decide
  · have h := (conditional_jump_step.2
      ⟨[.jnz (.value 1) (.value 5)], .pending, 0, Day23.Regs.zero, 0⟩
      (.value 1) (.value 5) (by decide)
      (by decide) (by decide)).2.1 (by decide) (Or.inr (by decide))
    rw [h]
  · have h := (conditional_jump_step.2
      ⟨[.jnz (.value 0) (.value 5)], .pending, 0, Day23.Regs.zero, 0⟩
      (.value 0) (.value 5) (by decide)
      (by decide) (by decide)).2.2 (by decide)
    rw [h]

/-- Claim C5: the two-machine scheduler loop of day-18 `part_2` returns
machine 1's total send count when, after relaying the queues, both machines
are simultaneously `WaitingForInput` with both input queues empty; and it
does not return (continues looping, i.e. does not terminate) on any iteration
in which some machine is `WaitingForInput` with a non-empty input queue after
the relaying. -/
theorem scheduler_deadlock_termination (fuel iters : ℕ) (m0 m1 : Day18.Machine) :
    (((Day18.relay m0 m1).1.state = .waitingForInput ∧
      (Day18.relay m0 m1).2.state = .waitingForInput ∧
      (Day18.relay m0 m1).1.inputQueue = [] ∧
      (Day18.relay m0 m1).2.inputQueue = []) →
      Day18.schedulerStep fuel m0 m1 = some (.inr m1.outputCount) ∧
      Day18.schedulerLoop (iters + 1) fuel m0 m1 = some m1.outputCount) ∧
    ((((Day18.relay m0 m1).1.state = .waitingForInput ∧
        (Day18.relay m0 m1).1.inputQueue ≠ []) ∨
      ((Day18.relay m0 m1).2.state = .waitingForInput ∧
        (Day18.relay m0 m1).2.inputQueue ≠ [])) →
      ∀ c, Day18.schedulerStep fuel m0 m1 ≠ some (.inr c)) := by
  constructor
  · rintro ⟨h1, h2, h3, h4⟩
    have hstep : Day18.schedulerStep fuel m0 m1 = some (.inr m1.outputCount) := by
      unfold Day18.schedulerStep
      rw [if_neg (by rintro ⟨-, hne⟩; exact hne h3),
          if_neg (by rintro ⟨-, hne⟩; exact hne h4)]
      rfl
    exact ⟨hstep, by unfold Day18.schedulerLoop; rw [hstep]⟩
  · intro hprog c
    unfold Day18.schedulerStep
    by_cases hl : (Day18.relay m0 m1).1.state = .waitingForInput ∧
        (Day18.relay m0 m1).1.inputQueue ≠ []
    · rw [if_pos hl]
      rcases Day18.Machine.run fuel (Day18.relay m0 m1).1 with _ | x <;> simp
    · rw [if_neg hl]
      rcases hprog with hprog | hprog
      · exact absurd hprog hl
      · rw [if_pos hprog]
        rcases Day18.Machine.run fuel (Day18.relay m0 m1).2 with _ | x <;> simp

/-- Witness for C5: two concrete machines deadlocked (both waiting, all
queues empty); the scheduler returns machine 1's send count, here 3. -/
theorem scheduler_deadlock_termination_witness :
    Day18.schedulerStep 5
        ⟨[.rcv .A], false, .waitingForInput, 0, Day18.Regs.zero, [], 0, []⟩
        ⟨[.rcv .A], false, .waitingForInput, 0, Day18.Regs.zero, [], 3, []⟩ =
      some (.inr 3) ∧
    Day18.schedulerLoop 1 5
        ⟨[.rcv .A], false, .waitingForInput, 0, Day18.Regs.zero, [], 0, []⟩
        ⟨[.rcv .A], false, .waitingForInput, 0, Day18.Regs.zero, [], 3, []⟩ =
      some 3 :=
  (scheduler_deadlock_termination 5 0
      ⟨[.rcv .A], false, .waitingForInput, 0, Day18.Regs.zero, [], 0, []⟩
      ⟨[.rcv .A], false, .waitingForInput, 0, Day18.Regs.zero, [], 3, []⟩).1
    (by refine ⟨?_, ?_, ?_, ?_⟩ <;> decide)

namespace Day23

/-- Machine states reachable from an initial state (instruction pointer 0,
any initial register contents) by `step` calls. -/
inductive Reach (p : List Instruction) : Machine → Prop where
  | init (r : Regs) : Reach p ⟨p, .pending, 0, r, 0⟩
  | next {m m' : Machine} : Reach p m → m.step = some m' → Reach p m'

/-- The current instruction is a conditional jump that will be taken to an
in-bounds target. -/
def Machine.takesJumpB (m : Machine) : Bool :=
  match m.instructions[m.ip]? with
  | some (.jnz check delta) =>
      (!(m.getValue check == 0)) &&
        (match checkedAddSigned m.ip (m.getValue delta) with
         | some t => t < m.instructions.length
         | none => false)
  | _ => false

theorem step_instructions_ip {m m' : Machine} (h : m.step = some m') :
    m'.instructions = m.instructions ∧
      (m.ip ≤ m.instructions.length → m'.ip ≤ m.instructions.length) := by
  unfold Machine.step at h
  rcases hstate : m.state with _ | _
  · simp only [hstate, ne_eq, not_true_eq_false, if_false, reduceIte] at h
    rcases hf : m.instructions[m.ip]? with _ | ins
    · simp only [hf] at h
      cases h
      exact ⟨rfl, fun hle => hle⟩
    · have hlt := (List.getElem?_eq_some.mp hf).1
      cases ins with
      | binOp op reg src =>
          simp only [hf] at h
          rcases ha : op.apply (m.registers.get reg) (m.getValue src) with _ | v
          · rw [ha] at h
            exact Option.noConfusion h
          · rw [ha] at h
            cases h
            exact ⟨rfl, fun _ => by dsimp only; omega⟩
      | jnz check delta =>
          simp only [hf] at h
          by_cases hc : m.getValue check ≠ 0
          · rw [if_pos hc] at h
            rcases hj : checkedAddSigned m.ip (m.getValue delta) with _ | t
            · simp only [hj] at h
              cases h
              exact ⟨rfl, fun _ => by dsimp only; omega⟩
            · simp only [hj] at h
              by_cases ht : t < m.instructions.length
              · rw [if_pos ht] at h
                cases h
                exact ⟨rfl, fun _ => by dsimp only; omega⟩
              · rw [if_neg ht] at h
                cases h
                exact ⟨rfl, fun _ => by dsimp only; omega⟩
          · rw [if_neg hc] at h
            cases h
            exact ⟨rfl, fun _ => by dsimp only; omega⟩
  · rw [if_pos (by rw [hstate]; exact fun hx => MState.noConfusion hx)] at h
    cases h
    exact ⟨rfl, fun hle => hle⟩

theorem reach_instructions_ip {p : List Instruction} {m : Machine}
    (h : Reach p m) : m.instructions = p ∧ m.ip ≤ p.length := by
  induction h with
  | init r => exact ⟨rfl, Nat.zero_le _⟩
  | next _ hstep ih =>
      obtain ⟨h1, h2⟩ := step_instructions_ip hstep
      rw [ih.1] at h1 h2
      exact ⟨h1, h2 ih.2⟩

theorem step_detail {m m' : Machine} (h : m.step = some m')
    (hpend : m.state = .pending) :
    (m.takesJumpB = true → m'.ip < m.instructions.length) ∧
    (m.takesJumpB = false → m.ip < m.instructions.length → m'.ip = m.ip + 1) ∧
    (m.instructions.length ≤ m.ip → m' = { m with state := .stopped }) := by
  unfold Machine.step at h
  unfold Machine.takesJumpB
  simp only [hpend, ne_eq, not_true_eq_false, if_false, reduceIte] at h
  rcases hf : m.instructions[m.ip]? with _ | ins
  · simp only [hf] at h ⊢
    cases h
    exact ⟨fun hx => Bool.noConfusion hx, fun _ hlt => by
      rw [List.getElem?_eq_getElem hlt] at hf
      exact Option.noConfusion hf, fun _ => rfl⟩
  · have hlt := (List.getElem?_eq_some.mp hf).1
    cases ins with
    | binOp op reg src =>
        simp only [hf] at h ⊢
        rcases ha : op.apply (m.registers.get reg) (m.getValue src) with _ | v
        · rw [ha] at h
          exact Option.noConfusion h
        · rw [ha] at h
          cases h
          exact ⟨fun hx => Bool.noConfusion hx, fun _ _ => rfl, fun hge => by omega⟩
    | jnz check delta =>
        simp only [hf] at h ⊢
        refine ⟨fun htaken => ?_, fun huntaken _ => ?_, fun hge => by omega⟩
        · rcases Bool.and_eq_true _ _ |>.mp htaken with ⟨hc0, hj0⟩
          have hc : m.getValue check ≠ 0 := by
            intro hx
            rw [hx] at hc0
            simp at hc0
          rw [if_pos hc] at h
          rcases hj : checkedAddSigned m.ip (m.getValue delta) with _ | t
          · rw [hj] at hj0
            exact Bool.noConfusion hj0
          · rw [hj] at hj0
            simp only [decide_eq_true_eq] at hj0
            simp only [hj] at h
            rw [if_pos hj0] at h
            cases h
            exact hj0
        · by_cases hc : m.getValue check ≠ 0
          · simp only [if_pos hc] at h
            have hc0 : (!(m.getValue check == 0)) = true := by
              simp [hc]
            rw [hc0] at huntaken
            simp only [Bool.true_and] at huntaken
            rcases hj : checkedAddSigned m.ip (m.getValue delta) with _ | t
            · simp only [hj] at h
              cases h
              rfl
            · rw [hj] at huntaken
              have hnot : ¬ t < m.instructions.length := by simpa using huntaken
              simp only [hj] at h
              rw [if_neg hnot] at h
              cases h
              rfl
          · rw [if_neg hc] at h
            cases h
            rfl

end Day23

namespace Day18

@[simp] theorem revive_instructions (m : Machine) :
    m.revive.instructions = m.instructions := by
  unfold Machine.revive; split <;> rfl

@[simp] theorem revive_ip (m : Machine) : m.revive.ip = m.ip := by
  unfold Machine.revive; split <;> rfl

@[simp] theorem revive_registers (m : Machine) :
    m.revive.registers = m.registers := by
  unfold Machine.revive; split <;> rfl

@[simp] theorem revive_inputQueue (m : Machine) :
    m.revive.inputQueue = m.inputQueue := by
  unfold Machine.revive; split <;> rfl

@[simp] theorem revive_outputQueue (m : Machine) :
    m.revive.outputQueue = m.outputQueue := by
  unfold Machine.revive; split <;> rfl

@[simp] theorem revive_outputCount (m : Machine) :
    m.revive.outputCount = m.outputCount := by
  unfold Machine.revive; split <;> rfl

@[simp] theorem revive_rcvNonzero (m : Machine) :
    m.revive.rcvNonzero = m.rcvNonzero := by
  unfold Machine.revive; split <;> rfl

@[simp] theorem revive_getValue (m : Machine) (src : RegOrValue) :
    m.revive.getValue src = m.getValue src := by
  unfold Machine.revive; split <;> rfl

/-- The current instruction is a conditional jump that will be taken to an
in-bounds target. -/
def Machine.takesJumpB (m : Machine) : Bool :=
  match m.instructions[m.ip]? with
  | some (.jgz check delta) =>
      (0 < m.getValue check) &&
        (match checkedAddSigned m.ip (m.getValue delta) with
         | some t => t < m.instructions.length
         | none => false)
  | _ => false

/-- The current instruction is a receive that will block (blocking condition
holds, input queue empty). -/
def Machine.blockedRcvB (m : Machine) : Bool :=
  match m.instructions[m.ip]? with
  | some (.rcv reg) =>
      ((!m.rcvNonzero) || !(m.registers.get reg == 0)) && m.inputQueue.isEmpty
  | _ => false

/-- Machine states reachable from an initial state (instruction pointer 0,
any initial register contents, empty queues) by `step` calls. -/
inductive Reach (p : List Instruction) (flag : Bool) : Machine → Prop where
  | init (r : Regs) : Reach p flag ⟨p, flag, .pending, 0, r, [], 0, []⟩
  | next {m m' : Machine} : Reach p flag m → m.step = some m' → Reach p flag m'

theorem step_instructions_ip18 {m m' : Machine} (h : m.step = some m') :
    m'.instructions = m.instructions ∧
      (m.ip ≤ m.instructions.length → m'.ip ≤ m.instructions.length) := by
  unfold Machine.step at h
  rcases hstate : m.revive.state with _ | _ | _
  · simp only [hstate, ne_eq, not_true_eq_false, if_false, reduceIte,
      revive_instructions, revive_ip, revive_registers, revive_inputQueue,
      revive_outputQueue, revive_outputCount, revive_rcvNonzero,
      revive_getValue] at h
    rcases hf : m.instructions[m.ip]? with _ | ins
    · simp only [hf] at h
      cases h
      simp
    · have hlt := (List.getElem?_eq_some.mp hf).1
      cases ins with
      | snd src =>
          simp only [hf] at h
          cases h
          simp
          omega
      | binOp op reg src =>
          simp only [hf] at h
          rcases ha : op.apply (m.registers.get reg) (m.getValue src) with _ | v
          · rw [ha] at h
            exact Option.noConfusion h
          · rw [ha] at h
            cases h
            simp
            omega
      | rcv reg =>
          simp only [hf] at h
          by_cases hb : m.rcvNonzero = false ∨ m.registers.get reg ≠ 0
          · rw [if_pos hb] at h
            rcases hq : m.inputQueue with _ | ⟨v, rest⟩
            · rw [hq] at h
              cases h
              simp
            · rw [hq] at h
              cases h
              simp
              omega
          · rw [if_neg hb] at h
            cases h
            simp
            omega
      | jgz check delta =>
          simp only [hf] at h
          by_cases hc : m.getValue check > 0
          · rw [if_pos hc] at h
            rcases hj : checkedAddSigned m.ip (m.getValue delta) with _ | t
            · simp only [hj] at h
              cases h
              simp
              omega
            · simp only [hj] at h
              by_cases ht : t < m.instructions.length
              · rw [if_pos ht] at h
                cases h
                simp
                omega
              · rw [if_neg ht] at h
                cases h
                simp
                omega
          · rw [if_neg hc] at h
            cases h
            simp
            omega
  · rw [if_pos (by rw [hstate]; exact fun hx => MState.noConfusion hx)] at h
    cases h
    simp
  · rw [if_pos (by rw [hstate]; exact fun hx => MState.noConfusion hx)] at h
    cases h
    simp

theorem reach_instructions_ip18 {p : List Instruction} {flag : Bool}
    {m : Machine} (h : Reach p flag m) :
    m.instructions = p ∧ m.ip ≤ p.length := by
  induction h with
  | init r => exact ⟨rfl, Nat.zero_le _⟩
  | next _ hstep ih =>
      obtain ⟨h1, h2⟩ := step_instructions_ip18 hstep
      rw [ih.1] at h1 h2
      exact ⟨h1, h2 ih.2⟩

end Day18

namespace Day18

theorem step_detail18 {m m' : Machine} (h : m.step = some m')
    (hpend : m.revive.state = .pending) :
    (m.takesJumpB = true → m'.ip < m.instructions.length) ∧
    (m.takesJumpB = false → m.blockedRcvB = false →
      m.ip < m.instructions.length → m'.ip = m.ip + 1) ∧
    (m.instructions.length ≤ m.ip → m' = { m.revive with state := .stopped }) := by
  unfold Machine.step at h
  unfold Machine.takesJumpB Machine.blockedRcvB
  simp only [hpend, ne_eq, not_true_eq_false, if_false, reduceIte,
      revive_instructions, revive_ip, revive_registers, revive_inputQueue,
      revive_outputQueue, revive_outputCount, revive_rcvNonzero,
      revive_getValue] at h
  rcases hf : m.instructions[m.ip]? with _ | ins
  · simp only [hf] at h ⊢
    cases h
    refine ⟨fun hx => Bool.noConfusion hx, fun _ _ hlt => ?_, fun _ => by simp⟩
    rw [List.getElem?_eq_getElem hlt] at hf
    exact Option.noConfusion hf
  · have hlt := (List.getElem?_eq_some.mp hf).1
    cases ins with
    | snd src =>
        simp only [hf] at h ⊢
        cases h
        exact ⟨fun hx => Bool.noConfusion hx, fun _ _ _ => rfl, fun hge => by omega⟩
    | binOp op reg src =>
        simp only [hf] at h ⊢
        rcases ha : op.apply (m.registers.get reg) (m.getValue src) with _ | v
        · rw [ha] at h
          exact Option.noConfusion h
        · rw [ha] at h
          cases h
          exact ⟨fun hx => Bool.noConfusion hx, fun _ _ _ => rfl, fun hge => by omega⟩
    | rcv reg =>
        simp only [hf] at h ⊢
        refine ⟨fun hx => Bool.noConfusion hx, fun _ hbF _ => ?_, fun hge => by omega⟩
        by_cases hb : m.rcvNonzero = false ∨ m.registers.get reg ≠ 0
        · rw [if_pos hb] at h
          rcases hq : m.inputQueue with _ | ⟨v, rest⟩
          · exfalso
            rw [hq] at hbF
            have htrue : ((!m.rcvNonzero) || !(m.registers.get reg == 0)) = true := by
              rcases hb with hb | hb
              · rw [hb]; simp
              · simp [hb]
            rw [htrue] at hbF
            simp at hbF
          · rw [hq] at h
            cases h
            rfl
        · rw [if_neg hb] at h
          cases h
          rfl
    | jgz check delta =>
        simp only [hf] at h ⊢
        refine ⟨fun htaken => ?_, fun huntaken _ _ => ?_, fun hge => by omega⟩
        · rcases Bool.and_eq_true _ _ |>.mp htaken with ⟨hc0, hj0⟩
          have hc : m.getValue check > 0 := by
            simpa using hc0
          rw [if_pos hc] at h
          rcases hj : checkedAddSigned m.ip (m.getValue delta) with _ | t
          · rw [hj] at hj0
            exact Bool.noConfusion hj0
          · rw [hj] at hj0
            simp only [decide_eq_true_eq] at hj0
            simp only [hj] at h
            rw [if_pos hj0] at h
            cases h
            exact hj0
        · by_cases hc : m.getValue check > 0
          · simp only [if_pos hc] at h
            have hc0 : (decide (0 < m.getValue check)) = true := by
              simpa using hc
            rw [hc0] at huntaken
            simp only [Bool.true_and] at huntaken
            rcases hj : checkedAddSigned m.ip (m.getValue delta) with _ | t
            · simp only [hj] at h
              cases h
              rfl
            · rw [hj] at huntaken
              have hnot : ¬ t < m.instructions.length := by simpa using huntaken
              simp only [hj] at h
              rw [if_neg hnot] at h
              cases h
              rfl
          · rw [if_neg hc] at h
            cases h
            rfl

end Day18

/-- Claim C10: in every state reachable by `step` calls from the initial
state, the instruction pointer is at most the program length (both machines);
moreover a taken in-bounds jump sets it strictly below the length, every
other executed (fetched, non-blocking) instruction increments it by exactly
one from a value strictly below the length, and fetching at an out-of-range
instruction pointer stops the machine without changing it. -/
theorem reachable_ip_le_length :
    (∀ (p : List Day18.Instruction) (flag : Bool) (m : Day18.Machine),
      Day18.Reach p flag m → m.ip ≤ p.length) ∧
    (∀ (p : List Day23.Instruction) (m : Day23.Machine),
      Day23.Reach p m → m.ip ≤ p.length) ∧
    (∀ (m m' : Day18.Machine), m.revive.state = .pending → m.step = some m' →
      (m.takesJumpB = true → m'.ip < m.instructions.length) ∧
      (m.takesJumpB = false → m.blockedRcvB = false →
        m.ip < m.instructions.length → m'.ip = m.ip + 1) ∧
      (m.instructions.length ≤ m.ip → m' = { m.revive with state := .stopped })) ∧
    (∀ (m m' : Day23.Machine), m.state = .pending → m.step = some m' →
      (m.takesJumpB = true → m'.ip < m.instructions.length) ∧
      (m.takesJumpB = false → m.ip < m.instructions.length → m'.ip = m.ip + 1) ∧
      (m.instructions.length ≤ m.ip → m' = { m with state := .stopped })) :=
  ⟨fun _ _ _ h => (Day18.reach_instructions_ip18 h).2,
   fun _ _ h => (Day23.reach_instructions_ip h).2,
   fun _ _ hp hs => Day18.step_detail18 hs hp,
   fun _ _ hp hs => Day23.step_detail hs hp⟩

/-- Witness for C10: the bound at concrete initial states; a concrete taken
self-jump lands strictly in bounds; a concrete `set` advances by one. -/
theorem reachable_ip_le_length_witness :
    (⟨[.snd (.value 0)], true, .pending, 0, Day18.Regs.zero, [], 0, []⟩ :
        Day18.Machine).ip ≤ [Day18.Instruction.snd (.value 0)].length ∧
    (⟨[.jnz (.value 0) (.value 0)], .pending, 0, Day23.Regs.zero, 0⟩ :
        Day23.Machine).ip ≤ [Day23.Instruction.jnz (.value 0) (.value 0)].length ∧
    (⟨[.jgz (.value 2) (.value 0)], true, .pending, 0, Day18.Regs.zero, [], 0,
        []⟩ : Day18.Machine).ip <
      ([Day18.Instruction.jgz (.value 2) (.value 0)] : List Day18.Instruction).length ∧
    (⟨[.binOp .set .A (.value 1)], .pending, 1, Day23.Regs.zero.set .A 1, 0⟩ :
        Day23.Machine).ip =
      (⟨[.binOp .set .A (.value 1)], .pending, 0, Day23.Regs.zero, 0⟩ :
        Day23.Machine).ip + 1 :=
  ⟨reachable_ip_le_length.1 _ true _ (Day18.Reach.init Day18.Regs.zero),
   reachable_ip_le_length.2.1 _ _ (Day23.Reach.init Day23.Regs.zero),
   (reachable_ip_le_length.2.2.1
      ⟨[.jgz (.value 2) (.value 0)], true, .pending, 0, Day18.Regs.zero, [], 0, []⟩
      ⟨[.jgz (.value 2) (.value 0)], true, .pending, 0, Day18.Regs.zero, [], 0, []⟩
      (by decide) (by decide)).1 (by decide),
   (reachable_ip_le_length.2.2.2
      ⟨[.binOp .set .A (.value 1)], .pending, 0, Day23.Regs.zero, 0⟩
      ⟨[.binOp .set .A (.value 1)], .pending, 1, Day23.Regs.zero.set .A 1, 0⟩
      (by decide) (by decide)).2.1 (by decide) (by decide)⟩

namespace Day23

instance (ins : Instruction) : Decidable (straightLine ins) :=
  match ins with
  | .jnz _ _ => .isFalse fun h => h
  | .binOp _ _ _ => .isTrue trivial

theorem run_zero (m : Machine) :
    Machine.run 0 m = if m.state = .pending then none else some m := rfl

theorem run_succ (fuel : ℕ) (m : Machine) (h : m.state = .pending) :
    Machine.run (fuel + 1) m = m.step >>= Machine.run fuel := by
  unfold Machine.run
  rw [if_pos h]

theorem getValue_eq_valueIn (m : Machine) (src : RegOrValue) :
    m.getValue src = valueIn m.registers src := by
  cases src <;> rfl

theorem straight_run_from (rest : List Instruction) :
    ∀ (m : Machine) (rf : Regs),
      m.state = .pending →
      m.instructions.drop m.ip = rest →
      m.ip ≤ m.instructions.length →
      (∀ ins ∈ rest, straightLine ins) →
      straightEval rest m.registers = some rf →
      ∃ mc, Machine.run (rest.length + 1) m =
        some ⟨m.instructions, .stopped, m.instructions.length, rf, mc⟩ := by
  induction rest with
  | nil =>
      intro m rf hpend hdrop hle _ heval
      have hip : m.ip = m.instructions.length := by
        have := List.drop_eq_nil_iff.mp hdrop
        omega
      have hr : rf = m.registers := by
        unfold straightEval at heval
        exact (Option.some.inj heval).symm
      refine ⟨m.mulCount, ?_⟩
      have hstep : m.step =
          some ⟨m.instructions, .stopped, m.ip, m.registers, m.mulCount⟩ := by
        unfold Machine.step
        simp only [hpend, ne_eq, not_true_eq_false, reduceIte,
          List.getElem?_eq_none (by omega : m.instructions.length ≤ m.ip)]
      rw [hr, ← hip]
      simp only [List.length_nil]
      rw [run_succ 0 m hpend, hstep]
      rfl
  | cons ins rest' ih =>
      intro m rf hpend hdrop hle hstraight heval
      have hf : m.instructions[m.ip]? = some ins := by
        have h0 : (m.instructions.drop m.ip)[0]? = some ins := by
          rw [hdrop]
          simp
        rwa [List.getElem?_drop, Nat.add_zero] at h0
      have hlt := (List.getElem?_eq_some.mp hf).1
      have hdrop' : m.instructions.drop (m.ip + 1) = rest' := by
        rw [← List.tail_drop, hdrop]
        rfl
      cases ins with
      | jnz check delta =>
          exact False.elim (hstraight _ (List.mem_cons_self _ _))
      | binOp op reg src =>
          unfold straightEval at heval
          rcases ha : op.apply (m.registers.get reg) (valueIn m.registers src)
              with _ | v
          · rw [ha] at heval
            exact Option.noConfusion heval
          · rw [ha] at heval
            have hstep : m.step =
                some ⟨m.instructions, .pending, m.ip + 1, m.registers.set reg v,
                  if op = .mul then m.mulCount + 1 else m.mulCount⟩ := by
              unfold Machine.step
              simp only [hpend, ne_eq, not_true_eq_false, reduceIte, hf]
              rw [getValue_eq_valueIn, ha]
            obtain ⟨mc, hrun⟩ := ih
              ⟨m.instructions, .pending, m.ip + 1, m.registers.set reg v,
                if op = .mul then m.mulCount + 1 else m.mulCount⟩
              rf rfl hdrop' (by dsimp only; omega)
              (fun i hi => hstraight i (List.mem_cons_of_mem _ hi)) heval
            refine ⟨mc, ?_⟩
            simp only [List.length_cons]
            rw [run_succ (rest'.length + 1) m hpend, hstep]
            exact hrun

end Day23

namespace Day18

instance (ins : Instruction) : Decidable (straightLine ins) :=
  match ins with
  | .jgz _ _ => .isFalse fun h => h
  | .rcv _ => .isFalse fun h => h
  | .snd _ => .isTrue trivial
  | .binOp _ _ _ => .isTrue trivial

theorem runAux_succ (fuel : ℕ) (m : Machine) (h : m.state = .pending) :
    Machine.runAux (fuel + 1) m = m.step >>= Machine.runAux fuel := by
  unfold Machine.runAux
  rw [if_pos h]

theorem getValue_eq_valueIn18 (m : Machine) (src : RegOrValue) :
    m.getValue src = valueIn m.registers src := by
  cases src <;> rfl

theorem straight_run_from18 (rest : List Instruction) :
    ∀ (m : Machine) (rf : Regs),
      m.state = .pending →
      m.instructions.drop m.ip = rest →
      m.ip ≤ m.instructions.length →
      (∀ ins ∈ rest, straightLine ins) →
      straightEval rest m.registers = some rf →
      ∃ outq oc, Machine.runAux (rest.length + 1) m =
        some ⟨m.instructions, m.rcvNonzero, .stopped, m.instructions.length,
          rf, outq, oc, m.inputQueue⟩ := by
  induction rest with
  | nil =>
      intro m rf hpend hdrop hle _ heval
      have hip : m.ip = m.instructions.length := by
        have := List.drop_eq_nil_iff.mp hdrop
        omega
      have hr : rf = m.registers := by
        unfold straightEval at heval
        exact (Option.some.inj heval).symm
      refine ⟨m.outputQueue, m.outputCount, ?_⟩
      have hstep : m.step =
          some ⟨m.instructions, m.rcvNonzero, .stopped, m.ip, m.registers,
            m.outputQueue, m.outputCount, m.inputQueue⟩ := by
        unfold Machine.step
        rw [revive_of_pending hpend]
        simp only [hpend, ne_eq, not_true_eq_false, reduceIte,
          List.getElem?_eq_none (by omega : m.instructions.length ≤ m.ip)]
      rw [hr, ← hip]
      simp only [List.length_nil]
      rw [runAux_succ 0 m hpend, hstep]
      rfl
  | cons ins rest' ih =>
      intro m rf hpend hdrop hle hstraight heval
      have hf : m.instructions[m.ip]? = some ins := by
        have h0 : (m.instructions.drop m.ip)[0]? = some ins := by
          rw [hdrop]
          simp
        rwa [List.getElem?_drop, Nat.add_zero] at h0
      have hlt := (List.getElem?_eq_some.mp hf).1
      have hdrop' : m.instructions.drop (m.ip + 1) = rest' := by
        rw [← List.tail_drop, hdrop]
        rfl
      cases ins with
      | jgz check delta =>
          exact False.elim (hstraight _ (List.mem_cons_self _ _))
      | rcv reg =>
          exact False.elim (hstraight _ (List.mem_cons_self _ _))
      | snd src =>
          unfold straightEval at heval
          have hstep : m.step =
              some ⟨m.instructions, m.rcvNonzero, .pending, m.ip + 1,
                m.registers, m.outputQueue ++ [m.getValue src],
                m.outputCount + 1, m.inputQueue⟩ := by
            unfold Machine.step
            rw [revive_of_pending hpend]
            simp only [hpend, ne_eq, not_true_eq_false, reduceIte, hf]
          obtain ⟨outq, oc, hrun⟩ := ih
            ⟨m.instructions, m.rcvNonzero, .pending, m.ip + 1, m.registers,
              m.outputQueue ++ [m.getValue src], m.outputCount + 1,
              m.inputQueue⟩
            rf rfl hdrop' (by dsimp only; omega)
            (fun i hi => hstraight i (List.mem_cons_of_mem _ hi)) heval
          refine ⟨outq, oc, ?_⟩
          simp only [List.length_cons]
          rw [runAux_succ (rest'.length + 1) m hpend, hstep]
          exact hrun
      | binOp op reg src =>
          unfold straightEval at heval
          rcases ha : op.apply (m.registers.get reg) (valueIn m.registers src)
              with _ | v
          · rw [ha] at heval
            exact Option.noConfusion heval
          · rw [ha] at heval
            have hstep : m.step =
                some ⟨m.instructions, m.rcvNonzero, .pending, m.ip + 1,
                  m.registers.set reg v, m.outputQueue, m.outputCount,
                  m.inputQueue⟩ := by
              unfold Machine.step
              rw [revive_of_pending hpend]
              simp only [hpend, ne_eq, not_true_eq_false, reduceIte, hf]
              rw [getValue_eq_valueIn18, ha]
            obtain ⟨outq, oc, hrun⟩ := ih
              ⟨m.instructions, m.rcvNonzero, .pending, m.ip + 1,
                m.registers.set reg v, m.outputQueue, m.outputCount,
                m.inputQueue⟩
              rf rfl hdrop' (by dsimp only; omega)
              (fun i hi => hstraight i (List.mem_cons_of_mem _ hi)) heval
            refine ⟨outq, oc, ?_⟩
            simp only [List.length_cons]
            rw [runAux_succ (rest'.length + 1) m hpend, hstep]
            exact hrun

end Day18

/-- Claim C9: for every program with no jump and no blocking (receive)
instruction whose arithmetic never overflows (the direct evaluation
succeeds), `Machine::run` from the initial state terminates Stopped with
instruction pointer equal to the program length and registers equal to the
direct evaluation of the Set/Add/Sub/Mul/Mod sequence on the all-zero
register file (day-18 `Snd` touches only the output queue). -/
theorem straight_line_run :
    (∀ (p : List Day18.Instruction) (flag : Bool) (rf : Day18.Regs),
      (∀ ins ∈ p, Day18.straightLine ins) →
      Day18.straightEval p Day18.Regs.zero = some rf →
      ∃ outq oc, Day18.Machine.run (p.length + 1) (Day18.Machine.new p flag) =
        some ⟨p, flag, .stopped, p.length, rf, outq, oc, []⟩) ∧
    (∀ (p : List Day23.Instruction) (rf : Day23.Regs),
      (∀ ins ∈ p, Day23.straightLine ins) →
      Day23.straightEval p Day23.Regs.zero = some rf →
      ∃ mc, Day23.Machine.run (p.length + 1) (Day23.Machine.new p) =
        some ⟨p, .stopped, p.length, rf, mc⟩) := by
  constructor
  · intro p flag rf hstraight heval
    obtain ⟨outq, oc, hrun⟩ :=
      Day18.straight_run_from18 p (Day18.Machine.new p flag) rf rfl rfl
        (Nat.zero_le _) hstraight heval
    refine ⟨outq, oc, ?_⟩
    unfold Day18.Machine.run
    rw [Day18.revive_of_pending rfl]
    exact hrun
  · intro p rf hstraight heval
    exact Day23.straight_run_from p (Day23.Machine.new p) rf rfl rfl
      (Nat.zero_le _) hstraight heval

/-- Witness for C9: concrete straight-line programs on both machines. -/
theorem straight_line_run_witness :
    (∃ outq oc,
      Day18.Machine.run 4
        (Day18.Machine.new
          [.binOp .set .A (.value 2), .binOp .add .A (.value 3),
            .snd (.reg .A)] true) =
        some ⟨[.binOp .set .A (.value 2), .binOp .add .A (.value 3),
            .snd (.reg .A)], true, .stopped, 3, ⟨5, 0, 0, 0, 0, 0, 0⟩, outq,
            oc, []⟩) ∧
    (∃ mc,
      Day23.Machine.run 3
        (Day23.Machine.new [.binOp .set .B (.value 2), .binOp .sub .B (.value 5)]) =
        some ⟨[.binOp .set .B (.value 2), .binOp .sub .B (.value 5)], .stopped,
          2, ⟨0, -3, 0, 0, 0, 0, 0, 0⟩, mc⟩) :=
  ⟨straight_line_run.1
      [.binOp .set .A (.value 2), .binOp .add .A (.value 3), .snd (.reg .A)]
      true ⟨5, 0, 0, 0, 0, 0, 0⟩ (by decide) (by decide),
   straight_line_run.2
      [.binOp .set .B (.value 2), .binOp .sub .B (.value 5)]
      ⟨0, -3, 0, 0, 0, 0, 0, 0⟩ (by decide) (by decide)⟩

/-- An option whose `isSome` is `false` is `none`. -/
theorem eq_none_of_isSome_false {α : Type} {o : Option α}
    (h : o.isSome = false) : o = none := by
  cases o
  · rfl
  · simp at h

namespace Day23

theorem mapIdxFrom_length (fn : ℕ → Instruction → Instruction) :
    ∀ (s : ℕ) (l : List Instruction), (mapIdxFrom fn s l).length = l.length := by
  intro s l
  induction l generalizing s with
  | nil => rfl
  | cons x xs ih => simp [mapIdxFrom, ih]

theorem mapIdxFrom_getElem? (fn : ℕ → Instruction → Instruction) :
    ∀ (s : ℕ) (l : List Instruction) (k : ℕ),
      (mapIdxFrom fn s l)[k]? = (l[k]?).map (fn (s + k)) := by
  intro s l
  induction l generalizing s with
  | nil => intro k; simp [mapIdxFrom]
  | cons x xs ih =>
      intro k
      cases k with
      | zero => simp [mapIdxFrom]
      | succ k =>
          simp only [mapIdxFrom, List.getElem?_cons_succ]
          rw [show s + (k + 1) = (s + 1) + k from by omega]
          exact ih (s + 1) k

theorem translateAll_length (mp : RegisterMapping) :
    ∀ (l l' : List Instruction), translateAll mp l = some l' →
      l'.length = l.length := by
  intro l
  induction l with
  | nil =>
      intro l' h
      cases h
      rfl
  | cons x xs ih =>
      intro l' h
      unfold translateAll at h
      rcases h1 : translateIns mp x with _ | y
      · rw [h1] at h
        exact Option.noConfusion h
      · rw [h1] at h
        rcases h2 : translateAll mp xs with _ | ys
        · rw [h2] at h
          exact Option.noConfusion h
        · rw [h2] at h
          have h3 : y :: ys = l' := Option.some.inj h
          rw [← h3]
          simp [ih ys h2]

theorem findIdx_eq_none (instrs : List Instruction) :
    ∀ (k s : ℕ),
      (∀ j, s ≤ j → j < s + k →
        extractRegisterMapping (instrs.drop j) targetList = none) →
      findIdx instrs s k = none := by
  intro k
  induction k with
  | zero => intro s _; rfl
  | succ k ih =>
      intro s h
      unfold findIdx
      rw [h s (le_refl s) (by omega)]
      exact ih (s + 1) (fun j hj1 hj2 => h j (by omega) (by omega))

theorem findIdx_eq_some (instrs : List Instruction) :
    ∀ (k s i : ℕ) (mp : RegisterMapping), s ≤ i → i < s + k →
      extractRegisterMapping (instrs.drop i) targetList = some mp →
      (∀ j, s ≤ j → j < i →
        extractRegisterMapping (instrs.drop j) targetList = none) →
      findIdx instrs s k = some (i, mp) := by
  intro k
  induction k with
  | zero =>
      intro s i mp h1 h2 _ _
      exact absurd h2 (by omega)
  | succ k ih =>
      intro s i mp h1 h2 h3 h4
      unfold findIdx
      by_cases hs : s = i
      · subst hs
        rw [h3]
      · rw [h4 s (le_refl s) (by omega)]
        exact ih (s + 1) i mp (by omega) (by omega) h3
          (fun j hj1 hj2 => h4 j (by omega) hj2)

theorem findIdx_spec (instrs : List Instruction) :
    ∀ (k s i : ℕ) (mp : RegisterMapping),
      findIdx instrs s k = some (i, mp) →
      s ≤ i ∧ i < s + k ∧
      extractRegisterMapping (instrs.drop i) targetList = some mp ∧
      (∀ j, s ≤ j → j < i →
        extractRegisterMapping (instrs.drop j) targetList = none) := by
  intro k
  induction k with
  | zero =>
      intro s i mp h
      exact Option.noConfusion h
  | succ k ih =>
      intro s i mp h
      unfold findIdx at h
      rcases he : extractRegisterMapping (instrs.drop s) targetList with _ | mp0
      · rw [he] at h
        obtain ⟨ih1, ih2, ih3, ih4⟩ := ih (s + 1) i mp h
        refine ⟨by omega, by omega, ih3, fun j hj1 hj2 => ?_⟩
        by_cases hj : j = s
        · subst hj
          exact he
        · exact ih4 j (by omega) hj2
      · rw [he] at h
        cases h
        exact ⟨le_refl s, by omega, he, fun j hj1 hj2 => absurd hj2 (by omega)⟩

theorem buildResult_getElem (p : List Instruction) (i : ℕ)
    (mp : RegisterMapping) (r : List Instruction)
    (hbuild : buildResult p i mp = some r)
    (hi : i + targetList.length ≤ p.length) :
    (∀ j, j < i → r[j]? = (p[j]?).map (fixPre i j)) ∧
    (∀ j, i + targetList.length ≤ j → j < p.length →
      r[j + replacementList.length - targetList.length]? =
        (p[j]?).map (fixSuf i j)) := by
  unfold buildResult at hbuild
  rcases hm : mapRepl mp with _ | mid
  · rw [hm] at hbuild
    exact Option.noConfusion hbuild
  · rw [hm] at hbuild
    have hb2 : mapIdxFrom (fixPre i) 0 (p.take i) ++ mid ++
        mapIdxFrom (fixSuf i) (i + targetList.length)
          (p.drop (i + targetList.length)) = r := Option.some.inj hbuild
    subst hb2
    have hmidlen : mid.length = replacementList.length :=
      translateAll_length mp replacementList mid hm
    have h14 : targetList.length = 14 := rfl
    have h9 : replacementList.length = 9 := rfl
    have hprelen : (mapIdxFrom (fixPre i) 0 (p.take i)).length = i := by
      rw [mapIdxFrom_length, List.length_take]
      omega
    constructor
    · intro j hj
      rw [List.getElem?_append,
        if_pos (by rw [List.length_append, hprelen]; omega),
        List.getElem?_append, if_pos (by rw [hprelen]; omega),
        mapIdxFrom_getElem?, List.getElem?_take, if_pos hj, Nat.zero_add]
    · intro j hj1 hj2
      rw [h14] at hj1
      rw [h14, h9]
      rw [List.getElem?_append_right
        (by rw [List.length_append, hprelen, hmidlen, h9]; omega)]
      rw [List.length_append, hprelen, hmidlen, h9]
      rw [mapIdxFrom_getElem?, List.getElem?_drop]
      rw [show i + 14 + (j + 9 - 14 - (i + 9)) = j from by omega]

/-- A prefix instruction whose jump offset must be adjusted: a `jnz` with an
immediate offset whose saturated absolute target lies at or beyond the
window's end. -/
def isCrossFwd (i t : ℕ) : Instruction → Bool
  | .jnz _ (.value v) => i + targetList.length ≤ satAddSigned t v
  | _ => false

/-- A suffix instruction whose jump offset must be adjusted: a `jnz` with an
immediate offset whose saturated absolute target lies before the window's
start. -/
def isCrossBwd (i t : ℕ) : Instruction → Bool
  | .jnz _ (.value v) => satAddSigned t v < i
  | _ => false

theorem fixPre_eq_self (i t : ℕ) (ins : Instruction)
    (h : isCrossFwd i t ins = false) : fixPre i t ins = ins := by
  cases ins with
  | binOp op reg src => rfl
  | jnz c d =>
      cases d with
      | reg r => rfl
      | value v =>
          show (if i + targetList.length ≤ satAddSigned t v
              then Instruction.jnz c (.value (v + offsetDelta))
              else .jnz c (.value v)) = _
          rw [if_neg (of_decide_eq_false h)]

theorem fixSuf_eq_self (i t : ℕ) (ins : Instruction)
    (h : isCrossBwd i t ins = false) : fixSuf i t ins = ins := by
  cases ins with
  | binOp op reg src => rfl
  | jnz c d =>
      cases d with
      | reg r => rfl
      | value v =>
          show (if satAddSigned t v < i
              then Instruction.jnz c (.value (v - offsetDelta))
              else .jnz c (.value v)) = _
          rw [if_neg (of_decide_eq_false h)]

/-- A program with the idiom at offset 1 plus a forward prefix jump crossing
the window and a backward suffix jump crossing back over it. -/
def crossJumpProgram : List Instruction :=
  .jnz (.value 1) (.value 16) :: (targetList ++ [.jnz (.value 1) (.value (-16))])

/-- One padding instruction, used to embed the idiom in larger programs. -/
def padIns : Instruction := .binOp .set .A (.value 0)

/-- A program whose only full occurrence of the idiom is the final window
(the last `target.len()`-sized slice). -/
def lastWindowProgram : List Instruction := padIns :: targetList

/-- A program matching the idiom at window offset 1 (and not at offset 0),
with padding on both sides. -/
def firstWindowProgram : List Instruction := padIns :: (targetList ++ [padIns])

end Day23

/-- Claim C2: when `optimize` rewrites the window at offset `i`, every prefix
jump whose (saturated) absolute target lies at or beyond the window's end has
its offset adjusted by `replacement.len() - target.len()` (the instruction is
otherwise unchanged and keeps its position), and every suffix jump whose
absolute target lies before the window's start keeps its absolute target
exactly (its position shifts by the same `replacement.len() - target.len()`,
and the offset is adjusted the opposite way); instructions outside the window
are otherwise carried over position-correspondingly. -/
theorem optimize_jump_fixups (p : List Day23.Instruction) (i : ℕ)
    (r : List Day23.Instruction)
    (hfind : (Day23.findIdx p 0 (p.length - Day23.targetList.length)).map
      Prod.fst = some i)
    (hopt : Day23.optimize p = some r) :
    (∀ j c v, j < i → p[j]? = some (.jnz c (.value v)) →
      i + Day23.targetList.length ≤ satAddSigned j v →
      r[j]? = some (.jnz c (.value (v + Day23.offsetDelta))) ∧
      (j : ℤ) + (v + Day23.offsetDelta) = ((j : ℤ) + v) + Day23.offsetDelta) ∧
    (∀ j c v, i + Day23.targetList.length ≤ j → j < p.length →
      p[j]? = some (.jnz c (.value v)) → satAddSigned j v < i →
      r[j + Day23.replacementList.length - Day23.targetList.length]? =
        some (.jnz c (.value (v - Day23.offsetDelta))) ∧
      ((j + Day23.replacementList.length - Day23.targetList.length : ℕ) : ℤ) +
        (v - Day23.offsetDelta) = (j : ℤ) + v) ∧
    (∀ t, t < i → r[t]? = (p[t]?).map (Day23.fixPre i t)) ∧
    (∀ t, i + Day23.targetList.length ≤ t → t < p.length →
      r[t + Day23.replacementList.length - Day23.targetList.length]? =
        (p[t]?).map (Day23.fixSuf i t)) ∧
    Day23.offsetDelta =
      (Day23.replacementList.length : ℤ) - (Day23.targetList.length : ℤ) := by
  rcases hfi : Day23.findIdx p 0 (p.length - Day23.targetList.length)
      with _ | pair
  · rw [hfi] at hfind
    exact Option.noConfusion hfind
  · obtain ⟨i', mp⟩ := pair
    rw [hfi] at hfind
    have hii : i' = i := by simpa using hfind
    subst hii
    obtain ⟨-, hlt, -, -⟩ := Day23.findIdx_spec p _ 0 i' mp hfi
    have h14 : Day23.targetList.length = 14 := rfl
    have hi14 : i' + Day23.targetList.length ≤ p.length := by omega
    have hbuild : Day23.buildResult p i' mp = some r := by
      unfold Day23.optimize at hopt
      rw [hfi] at hopt
      exact hopt
    obtain ⟨hpre, hsuf⟩ := Day23.buildResult_getElem p i' mp r hbuild hi14
    have hdelta : Day23.offsetDelta = -5 := by decide
    refine ⟨fun j c v hj hpj hcross => ?_, fun j c v hj1 hj2 hpj hback => ?_,
      hpre, hsuf, rfl⟩
    · have hr := hpre j hj
      rw [hpj] at hr
      refine ⟨?_, by ring⟩
      rw [hr]
      show some (if i' + Day23.targetList.length ≤ satAddSigned j v
          then Day23.Instruction.jnz c (.value (v + Day23.offsetDelta))
          else .jnz c (.value v)) = _
      rw [if_pos hcross]
    · have hr := hsuf j hj1 hj2
      rw [hpj] at hr
      refine ⟨?_, ?_⟩
      · rw [hr]
        show some (if satAddSigned j v < i'
            then Day23.Instruction.jnz c (.value (v - Day23.offsetDelta))
            else .jnz c (.value v)) = _
        rw [if_pos hback]
      · rw [hdelta]
        have h9 : Day23.replacementList.length = 9 := rfl
        rw [h14] at hj1
        rw [h9, h14]
        omega

/-- Witness for C2: on `crossJumpProgram` (window at offset 1), the prefix
jump `jnz 1 16` at position 0 becomes `jnz 1 11` (old target 16 = new target
11 + 5), and the suffix jump `jnz 1 -16` at old position 15 lands at new
position 10 as `jnz 1 -11` with the same absolute target `-1`. -/
theorem optimize_jump_fixups_witness :
    ∃ r, Day23.optimize Day23.crossJumpProgram = some r ∧
      r[0]? = some (.jnz (.value 1) (.value 11)) ∧
      r[10]? = some (.jnz (.value 1) (.value (-11))) := by
  rcases hr : Day23.optimize Day23.crossJumpProgram with _ | r
  · have hS : (Day23.optimize Day23.crossJumpProgram).isSome = true := by decide
    rw [hr] at hS
    exact Bool.noConfusion hS
  · have hfind : (Day23.findIdx Day23.crossJumpProgram 0
        (Day23.crossJumpProgram.length - Day23.targetList.length)).map
        Prod.fst = some 1 := by decide
    obtain ⟨c1, c2, -, -, -⟩ :=
      optimize_jump_fixups Day23.crossJumpProgram 1 r hfind hr
    refine ⟨r, rfl, ?_, ?_⟩
    · exact (c1 0 (.value 1) 16 (by decide) (by decide) (by decide)).1
    · exact (c2 15 (.value 1) (-16) (by decide) (by decide) (by decide)
        (by decide)).1

/-- Counterexample for C3: the scan `for i in 0..len - target.len()` never
tries the final window offset.  `lastWindowProgram` (one padding instruction
followed by the 14-instruction idiom, length 15) structurally unifies with the
template at window offset 1 — the last valid offset — yet `optimize` panics
("Target not found!", modelled as `none`) instead of rewriting. -/
theorem optimize_misses_last_window :
    Day23.optimize Day23.lastWindowProgram = none ∧
    (Day23.extractRegisterMapping (Day23.lastWindowProgram.drop 1)
      Day23.targetList).isSome = true ∧
    Day23.lastWindowProgram.length = Day23.targetList.length + 1 := by
  refine ⟨by decide, by decide, by decide⟩

/-- Claim C3, amended: `optimize` slides the window over offsets
`0 ≤ i < len - target.len()` (all offsets except the final one).  If no such
window unifies it fails (`none`, the panic); otherwise it rewrites exactly
once, at the first unifying offset, producing `buildResult`, which carries
every instruction outside the window to its position-corresponding slot
unchanged except for the jump-offset fix-ups that cross the window
boundary. -/
theorem optimize_first_window (p : List Day23.Instruction) :
    ((∀ k, k < p.length - Day23.targetList.length →
        Day23.extractRegisterMapping (p.drop k) Day23.targetList = none) →
      Day23.optimize p = none) ∧
    (∀ i mp, i < p.length - Day23.targetList.length →
      Day23.extractRegisterMapping (p.drop i) Day23.targetList = some mp →
      (∀ k, k < i →
        Day23.extractRegisterMapping (p.drop k) Day23.targetList = none) →
      Day23.optimize p = Day23.buildResult p i mp ∧
      (∀ r, Day23.buildResult p i mp = some r →
        (∀ t ins, t < i → p[t]? = some ins →
          Day23.isCrossFwd i t ins = false → r[t]? = some ins) ∧
        (∀ t ins, i + Day23.targetList.length ≤ t → t < p.length →
          p[t]? = some ins → Day23.isCrossBwd i t ins = false →
          r[t + Day23.replacementList.length - Day23.targetList.length]? =
            some ins))) := by
  constructor
  · intro hnone
    unfold Day23.optimize
    rw [Day23.findIdx_eq_none p _ 0 (fun j _ hj2 => hnone j (by omega))]
  · intro i mp hlt hext hnone
    have hfi : Day23.findIdx p 0 (p.length - Day23.targetList.length) =
        some (i, mp) :=
      Day23.findIdx_eq_some p _ 0 i mp (Nat.zero_le i) (by omega) hext
        (fun j _ hj2 => hnone j hj2)
    constructor
    · unfold Day23.optimize
      rw [hfi]
    · intro r hbr
      have h14 : Day23.targetList.length = 14 := rfl
      have hi14 : i + Day23.targetList.length ≤ p.length := by omega
      obtain ⟨hpre, hsuf⟩ := Day23.buildResult_getElem p i mp r hbr hi14
      constructor
      · intro t ins ht hins hcf
        rw [hpre t ht, hins]
        show some (Day23.fixPre i t ins) = some ins
        rw [Day23.fixPre_eq_self i t ins hcf]
      · intro t ins ht1 ht2 hins hcb
        rw [hsuf t ht1 ht2, hins]
        show some (Day23.fixSuf i t ins) = some ins
        rw [Day23.fixSuf_eq_self i t ins hcb]

/-- Witness for C3 (amended): on `firstWindowProgram` the rewrite happens at
offset 1 (offset 0 does not unify), and the padding instructions at old
positions 0 and 15 are carried over unchanged to new positions 0 and 10. -/
theorem optimize_first_window_witness :
    ∃ r, Day23.optimize Day23.firstWindowProgram = some r ∧
      r[0]? = some Day23.padIns ∧ r[10]? = some Day23.padIns := by
  have hS : (Day23.extractRegisterMapping (Day23.firstWindowProgram.drop 1)
      Day23.targetList).isSome = true := by decide
  have hx : Day23.extractRegisterMapping (Day23.firstWindowProgram.drop 1)
      Day23.targetList = some ((Day23.extractRegisterMapping
        (Day23.firstWindowProgram.drop 1) Day23.targetList).get hS) :=
    (Option.some_get hS).symm
  obtain ⟨hopt, hinner⟩ := (optimize_first_window Day23.firstWindowProgram).2 1
    _ (by decide) hx
    (fun k hk => by
      have hk0 : k = 0 := by omega
      subst hk0
      exact eq_none_of_isSome_false (by decide))
  rcases hbr : Day23.buildResult Day23.firstWindowProgram 1
      ((Day23.extractRegisterMapping (Day23.firstWindowProgram.drop 1)
        Day23.targetList).get hS) with _ | r
  · have hS2 : (Day23.optimize Day23.firstWindowProgram).isSome = true := by
      decide
    rw [hopt, hbr] at hS2
    exact Bool.noConfusion hS2
  · refine ⟨r, by rw [hopt, hbr], ?_, ?_⟩
    · exact (hinner r hbr).1 0 Day23.padIns (by decide) (by decide) (by decide)
    · exact (hinner r hbr).2 15 Day23.padIns (by decide) (by decide)
        (by decide) (by decide)

namespace Day23

/-- The 14-instruction idiom followed by one padding instruction: the
smallest program shape on which `optimize` fires (at window offset 0). -/
def progC1 : List Instruction := targetList ++ [padIns]

/-- The program `optimize` produces for `progC1`: the replacement followed by
the unchanged padding instruction. -/
def progC1opt : List Instruction := replacementList ++ [padIns]

/-- A pending machine on program `p` at instruction pointer `ip` with
registers `r` and multiply count `mc`. -/
def cfg (p : List Instruction) (ip : ℕ) (r : Regs) (mc : ℕ) : Machine :=
  ⟨p, .pending, ip, r, mc⟩

/-- A machine with registers `r` resolves operands exactly as `valueIn r`. -/
theorem cfg_getValue (p : List Instruction) (ip : ℕ) (r : Regs) (mc : ℕ)
    (src : RegOrValue) : (cfg p ip r mc).getValue src = valueIn r src := by
  cases src <;> rfl

theorem getValue_mk (p : List Instruction) (st : MState) (ip : ℕ) (r : Regs)
    (mc : ℕ) (src : RegOrValue) :
    (Machine.mk p st ip r mc).getValue src = valueIn r src := by
  cases src <;> rfl

theorem cfg_step_set (p : List Instruction) (ip : ℕ) (r : Regs) (mc : ℕ)
    (reg : Reg) (src : RegOrValue)
    (hf : p[ip]? = some (.binOp .set reg src)) :
    (cfg p ip r mc).step = some (cfg p (ip + 1) (r.set reg (valueIn r src)) mc) := by
  unfold Machine.step
  simp only [cfg_getValue, cfg, ne_eq, not_true_eq_false, reduceIte, hf]
  rfl

theorem cfg_step_sub (p : List Instruction) (ip : ℕ) (r : Regs) (mc : ℕ)
    (reg : Reg) (src : RegOrValue)
    (hf : p[ip]? = some (.binOp .sub reg src))
    (hrange : inI64 (r.get reg - valueIn r src)) :
    (cfg p ip r mc).step =
      some (cfg p (ip + 1) (r.set reg (r.get reg - valueIn r src)) mc) := by
  unfold Machine.step
  simp only [cfg_getValue, cfg, ne_eq, not_true_eq_false, reduceIte, hf]
  show (match checkedSub (r.get reg) (valueIn r src) with
    | none => none
    | some v => some (cfg p (ip + 1) (r.set reg v) mc)) = _
  rw [checkedSub, if_pos hrange]
  rfl

theorem cfg_step_mul (p : List Instruction) (ip : ℕ) (r : Regs) (mc : ℕ)
    (reg : Reg) (src : RegOrValue)
    (hf : p[ip]? = some (.binOp .mul reg src))
    (hrange : inI64 (r.get reg * valueIn r src)) :
    (cfg p ip r mc).step =
      some (cfg p (ip + 1) (r.set reg (r.get reg * valueIn r src)) (mc + 1)) := by
  unfold Machine.step
  simp only [cfg_getValue, cfg, ne_eq, not_true_eq_false, reduceIte, hf]
  show (match checkedMul (r.get reg) (valueIn r src) with
    | none => none
    | some v => some (cfg p (ip + 1) (r.set reg v) (mc + 1))) = _
  rw [checkedMul, if_pos hrange]
  rfl

theorem cfg_step_mod (p : List Instruction) (ip : ℕ) (r : Regs) (mc : ℕ)
    (reg : Reg) (src : RegOrValue)
    (hf : p[ip]? = some (.binOp .mod reg src))
    (h0 : valueIn r src ≠ 0)
    (h1 : ¬ (r.get reg = minI64 ∧ valueIn r src = -1)) :
    (cfg p ip r mc).step =
      some (cfg p (ip + 1) (r.set reg (Int.tmod (r.get reg) (valueIn r src))) mc) := by
  unfold Machine.step
  simp only [cfg_getValue, cfg, ne_eq, not_true_eq_false, reduceIte, hf]
  show (match checkedRem (r.get reg) (valueIn r src) with
    | none => none
    | some v => some (cfg p (ip + 1) (r.set reg v) mc)) = _
  rw [checkedRem, if_neg (by tauto)]
  rfl

theorem cfg_step_jnz_taken (p : List Instruction) (ip t : ℕ) (r : Regs)
    (mc : ℕ) (check delta : RegOrValue)
    (hf : p[ip]? = some (.jnz check delta))
    (hc : valueIn r check ≠ 0)
    (ht : (ip : ℤ) + valueIn r delta = (t : ℤ))
    (hlen : t < p.length) (hsmall : p.length ≤ 2 ^ 64) :
    (cfg p ip r mc).step = some (cfg p t r mc) := by
  unfold Machine.step
  simp only [cfg_getValue, cfg, getValue_mk, ne_eq, not_true_eq_false,
    reduceIte, hf]
  rw [if_pos hc, checkedAddSigned, if_pos (by omega)]
  show (if ((ip : ℤ) + valueIn r delta).toNat < p.length then _ else _) = _
  rw [if_pos (by omega)]
  have htt : ((ip : ℤ) + valueIn r delta).toNat = t := by omega
  rw [htt]

theorem cfg_step_jnz_skip (p : List Instruction) (ip : ℕ) (r : Regs)
    (mc : ℕ) (check delta : RegOrValue)
    (hf : p[ip]? = some (.jnz check delta))
    (hc : valueIn r check = 0) :
    (cfg p ip r mc).step = some (cfg p (ip + 1) r mc) := by
  unfold Machine.step
  simp only [cfg_getValue, cfg, getValue_mk, ne_eq, not_true_eq_false,
    reduceIte, hf]
  rw [if_neg (by simp [hc])]

end Day23

namespace Day23

theorem b_le_max {b : ℤ} (h3 : 3 ≤ b) (hbb : (b - 1) * (b - 1) ≤ maxI64) :
    b ≤ maxI64 := by
  unfold maxI64 at *
  nlinarith

theorem tmod_eq_zero_of_dvd {d b : ℤ} (h : d ∣ b) (hd : 0 < d) (hb : 0 ≤ b) :
    Int.tmod b d = 0 := by
  rw [Int.tmod_eq_emod hb (by omega)]
  exact Int.emod_eq_zero_of_dvd h

theorem tmod_ne_zero_of_not_dvd {d b : ℤ} (h : ¬ d ∣ b) (hd : 0 < d)
    (hb : 0 ≤ b) : Int.tmod b d ≠ 0 := by
  rw [Int.tmod_eq_emod hb (by omega)]
  intro hx
  exact h (Int.dvd_of_emod_eq_zero hx)

/-- Some `k` in `[lo, hi]` has `d * k = b` (the inner loop's exit condition
on register `f`). -/
@[reducible] def hitInRange (d lo hi b : ℤ) : Prop :=
  ∃ k ∈ Finset.Icc lo hi, d * k = b

instance (d lo hi b : ℤ) : Decidable (hitInRange d lo hi b) :=
  Finset.decidableExistsAndFinset

/-- Some `k` in `[lo, hi]` divides `b` (the whole window's effect on
register `f`). -/
@[reducible] def divisorInRange (lo hi b : ℤ) : Prop :=
  ∃ k ∈ Finset.Icc lo hi, k ∣ b

instance (lo hi b : ℤ) : Decidable (divisorInRange lo hi b) :=
  Finset.decidableExistsAndFinset

/-- Merging one inner-loop check into the remaining range (multiplication
form). -/
theorem mul_cond_succ (d e b f : ℤ) (heb : e < b) :
    (if hitInRange d (e + 1) (b - 1) b then 0
     else if d * e = b then (0 : ℤ) else f) =
    (if hitInRange d e (b - 1) b then 0 else f) := by
  by_cases hde : d * e = b
  · rw [if_pos hde,
      if_pos (⟨e, Finset.mem_Icc.mpr ⟨le_refl e, by omega⟩, hde⟩ :
        hitInRange d e (b - 1) b)]
    split <;> rfl
  · rw [if_neg hde]
    by_cases hex : hitInRange d (e + 1) (b - 1) b
    · obtain ⟨k, hk, hdk⟩ := hex
      have hk2 := Finset.mem_Icc.mp hk
      rw [if_pos ⟨k, hk, hdk⟩,
        if_pos ⟨k, Finset.mem_Icc.mpr ⟨by omega, hk2.2⟩, hdk⟩]
    · rw [if_neg hex, if_neg ?_]
      rintro ⟨k, hk, hdk⟩
      have hk2 := Finset.mem_Icc.mp hk
      by_cases hke : k = e
      · rw [hke] at hdk
        exact hde hdk
      · exact hex ⟨k, Finset.mem_Icc.mpr ⟨by omega, hk2.2⟩, hdk⟩

/-- In the last inner iteration (`e + 1 = b`) the remaining range is the
singleton `{e}`. -/
theorem mul_cond_last (d e b f : ℤ) (h : e + 1 = b) :
    (if d * e = b then (0 : ℤ) else f) =
    (if hitInRange d e (b - 1) b then 0 else f) := by
  refine if_congr ?_ rfl rfl
  constructor
  · intro h'
    exact ⟨e, Finset.mem_Icc.mpr ⟨le_refl e, by omega⟩, h'⟩
  · rintro ⟨k, hk, hdk⟩
    have hk2 := Finset.mem_Icc.mp hk
    have hke : k = e := by omega
    rwa [hke] at hdk

/-- For `2 ≤ d < b`, the inner loop finds a factor iff `d` divides `b`. -/
theorem mul_cond_iff_dvd (d b : ℤ) (h2 : 2 ≤ d) (hdb : d < b) :
    hitInRange d 2 (b - 1) b ↔ d ∣ b := by
  constructor
  · rintro ⟨k, -, hdk⟩
    exact ⟨k, hdk.symm⟩
  · rintro ⟨k, hk⟩
    have hk2 : 2 ≤ k := by nlinarith
    refine ⟨k, Finset.mem_Icc.mpr ⟨hk2, by nlinarith⟩, hk.symm⟩

/-- Merging one outer-loop check into the remaining range when `d ∤ b` (the
check leaves `f` unchanged). -/
theorem dvd_cond_skip (d b : ℤ) (f : ℤ) (hnd : ¬ d ∣ b) :
    (if divisorInRange (d + 1) (b - 1) b then (0 : ℤ) else f) =
    (if divisorInRange d (b - 1) b then 0 else f) := by
  refine if_congr ?_ rfl rfl
  constructor
  · rintro ⟨k, hk, hdk⟩
    have hk2 := Finset.mem_Icc.mp hk
    exact ⟨k, Finset.mem_Icc.mpr ⟨by omega, hk2.2⟩, hdk⟩
  · rintro ⟨k, hk, hdk⟩
    have hk2 := Finset.mem_Icc.mp hk
    by_cases hke : k = d
    · rw [hke] at hdk
      exact absurd hdk hnd
    · exact ⟨k, Finset.mem_Icc.mpr ⟨by omega, hk2.2⟩, hdk⟩

/-- Merging one outer-loop check when `d` does divide `b`. -/
theorem dvd_cond_found (d b : ℤ) (f : ℤ) (hd : d ∣ b) (hdb : d < b) :
    (if divisorInRange d (b - 1) b then (0 : ℤ) else f) = 0 := by
  rw [if_pos ⟨d, Finset.mem_Icc.mpr ⟨le_refl d, by omega⟩, hd⟩]

/-- In the last outer iteration (`d + 1 = b`) the remaining range is the
singleton `{d}`. -/
theorem dvd_cond_last (d b : ℤ) (f : ℤ) (h : d + 1 = b) :
    (if d ∣ b then (0 : ℤ) else f) =
    (if divisorInRange d (b - 1) b then 0 else f) := by
  refine if_congr ?_ rfl rfl
  constructor
  · intro h'
    exact ⟨d, Finset.mem_Icc.mpr ⟨le_refl d, by omega⟩, h'⟩
  · rintro ⟨k, hk, hdk⟩
    have hk2 := Finset.mem_Icc.mp hk
    have hke : k = d := by omega
    rwa [hke] at hdk

end Day23

namespace Day23

theorem unopt_inner :
    ∀ (n : ℕ) (a b c d e f g h : ℤ) (mc : ℕ),
      2 ≤ e → e < b → 2 ≤ d → d ≤ b - 1 → (b - 1) * (b - 1) ≤ maxI64 →
      (b - e).toNat = n →
      ∃ mc', Reaches (cfg progC1 1 ⟨a, b, c, d, e, f, g, h⟩ mc)
        (cfg progC1 10 ⟨a, b, c, d, b,
          (if hitInRange d e (b - 1) b then 0 else f), 0, h⟩ mc') := by
  intro n
  induction n with
  | zero =>
      intro a b c d e f g h mc h2e heb h2d hdb hbb hn
      exact absurd hn (by omega)
  | succ n ih =>
      intro a b c d e f g h mc h2e heb h2d hdb hbb hn
      have hM : maxI64 = 2 ^ 63 - 1 := rfl
      have hm : minI64 = -(2 ^ 63) := rfl
      have hble : b ≤ maxI64 := b_le_max (by omega) hbb
      have hde0 : 0 ≤ d * e := mul_nonneg (by omega) (by omega)
      have hdeM : d * e ≤ maxI64 :=
        le_trans (mul_le_mul (by omega) (by omega) (by omega) (by omega)) hbb
      have s1 : Reaches (cfg progC1 1 ⟨a, b, c, d, e, f, g, h⟩ mc)
          (cfg progC1 2 ⟨a, b, c, d, e, f, d, h⟩ mc) :=
        Reaches.single rfl
          (cfg_step_set progC1 1 ⟨a, b, c, d, e, f, g, h⟩ mc .G (.reg .D)
            (by decide))
      have s2 : Reaches (cfg progC1 2 ⟨a, b, c, d, e, f, d, h⟩ mc)
          (cfg progC1 3 ⟨a, b, c, d, e, f, d * e, h⟩ (mc + 1)) :=
        Reaches.single rfl
          (cfg_step_mul progC1 2 ⟨a, b, c, d, e, f, d, h⟩ mc .G (.reg .E)
            (by decide) (show inI64 (d * e) from ⟨by omega, by omega⟩))
      have s3 : Reaches (cfg progC1 3 ⟨a, b, c, d, e, f, d * e, h⟩ (mc + 1))
          (cfg progC1 4 ⟨a, b, c, d, e, f, d * e - b, h⟩ (mc + 1)) :=
        Reaches.single rfl
          (cfg_step_sub progC1 3 ⟨a, b, c, d, e, f, d * e, h⟩ (mc + 1) .G
            (.reg .B) (by decide)
            (show inI64 (d * e - b) from ⟨by omega, by omega⟩))
      have s46 : Reaches (cfg progC1 4 ⟨a, b, c, d, e, f, d * e - b, h⟩ (mc + 1))
          (cfg progC1 6 ⟨a, b, c, d, e, (if d * e = b then 0 else f),
            d * e - b, h⟩ (mc + 1)) := by
        by_cases hde : d * e = b
        · rw [if_pos hde]
          have s4 : Reaches
              (cfg progC1 4 ⟨a, b, c, d, e, f, d * e - b, h⟩ (mc + 1))
              (cfg progC1 5 ⟨a, b, c, d, e, f, d * e - b, h⟩ (mc + 1)) :=
            Reaches.single rfl
              (cfg_step_jnz_skip progC1 4 ⟨a, b, c, d, e, f, d * e - b, h⟩
                (mc + 1) (.reg .G) (.value 2) (by decide)
                (show d * e - b = 0 from by omega))
          have s5 : Reaches
              (cfg progC1 5 ⟨a, b, c, d, e, f, d * e - b, h⟩ (mc + 1))
              (cfg progC1 6 ⟨a, b, c, d, e, (0 : ℤ), d * e - b, h⟩ (mc + 1)) :=
            Reaches.single rfl
              (cfg_step_set progC1 5 ⟨a, b, c, d, e, f, d * e - b, h⟩ (mc + 1)
                .F (.value 0) (by decide))
          exact s4.trans s5
        · rw [if_neg hde]
          exact Reaches.single rfl
            (cfg_step_jnz_taken progC1 4 6 ⟨a, b, c, d, e, f, d * e - b, h⟩
              (mc + 1) (.reg .G) (.value 2) (by decide)
              (show d * e - b ≠ 0 from by omega)
              (show ((4 : ℕ) : ℤ) + 2 = ((6 : ℕ) : ℤ) from by norm_num)
              (by decide) (by decide))
      have s6 : Reaches (cfg progC1 6 ⟨a, b, c, d, e,
            (if d * e = b then 0 else f), d * e - b, h⟩ (mc + 1))
          (cfg progC1 7 ⟨a, b, c, d, e + 1,
            (if d * e = b then 0 else f), d * e - b, h⟩ (mc + 1)) :=
        Reaches.single rfl
          (cfg_step_sub progC1 6 ⟨a, b, c, d, e,
              (if d * e = b then 0 else f), d * e - b, h⟩ (mc + 1) .E
            (.value (-1)) (by decide)
            (show inI64 (e - -1) from ⟨by omega, by omega⟩))
      have s7 : Reaches (cfg progC1 7 ⟨a, b, c, d, e + 1,
            (if d * e = b then 0 else f), d * e - b, h⟩ (mc + 1))
          (cfg progC1 8 ⟨a, b, c, d, e + 1,
            (if d * e = b then 0 else f), e + 1, h⟩ (mc + 1)) :=
        Reaches.single rfl
          (cfg_step_set progC1 7 ⟨a, b, c, d, e + 1,
              (if d * e = b then 0 else f), d * e - b, h⟩ (mc + 1) .G
            (.reg .E) (by decide))
      have s8 : Reaches (cfg progC1 8 ⟨a, b, c, d, e + 1,
            (if d * e = b then 0 else f), e + 1, h⟩ (mc + 1))
          (cfg progC1 9 ⟨a, b, c, d, e + 1,
            (if d * e = b then 0 else f), e + 1 - b, h⟩ (mc + 1)) :=
        Reaches.single rfl
          (cfg_step_sub progC1 8 ⟨a, b, c, d, e + 1,
              (if d * e = b then 0 else f), e + 1, h⟩ (mc + 1) .G (.reg .B)
            (by decide)
            (show inI64 (e + 1 - b) from ⟨by omega, by omega⟩))
      have spre := ((((s1.trans s2).trans s3).trans s46).trans s6).trans
        (s7.trans s8)
      by_cases hlast : e + 1 = b
      · refine ⟨mc + 1, ?_⟩
        have s9 : Reaches (cfg progC1 9 ⟨a, b, c, d, e + 1,
              (if d * e = b then 0 else f), e + 1 - b, h⟩ (mc + 1))
            (cfg progC1 10 ⟨a, b, c, d, e + 1,
              (if d * e = b then 0 else f), e + 1 - b, h⟩ (mc + 1)) :=
          Reaches.single rfl
            (cfg_step_jnz_skip progC1 9 ⟨a, b, c, d, e + 1,
                (if d * e = b then 0 else f), e + 1 - b, h⟩ (mc + 1)
              (.reg .G) (.value (-8)) (by decide)
              (show e + 1 - b = 0 from by omega))
        have hregs : (⟨a, b, c, d, e + 1, (if d * e = b then 0 else f),
            e + 1 - b, h⟩ : Regs) = ⟨a, b, c, d, b,
            (if hitInRange d e (b - 1) b then 0 else f), 0, h⟩ := by
          rw [mul_cond_last d e b f hlast, hlast, sub_self]
        exact hregs ▸ (spre.trans s9)
      · have s9 : Reaches (cfg progC1 9 ⟨a, b, c, d, e + 1,
              (if d * e = b then 0 else f), e + 1 - b, h⟩ (mc + 1))
            (cfg progC1 1 ⟨a, b, c, d, e + 1,
              (if d * e = b then 0 else f), e + 1 - b, h⟩ (mc + 1)) :=
          Reaches.single rfl
            (cfg_step_jnz_taken progC1 9 1 ⟨a, b, c, d, e + 1,
                (if d * e = b then 0 else f), e + 1 - b, h⟩ (mc + 1)
              (.reg .G) (.value (-8)) (by decide)
              (show e + 1 - b ≠ 0 from by omega)
              (show ((9 : ℕ) : ℤ) + (-8) = ((1 : ℕ) : ℤ) from by norm_num)
              (by decide) (by decide))
        obtain ⟨mc', hrest⟩ := ih a b c d (e + 1) (if d * e = b then 0 else f)
          (e + 1 - b) h (mc + 1) (by omega) (by omega) h2d hdb hbb (by omega)
        refine ⟨mc', ?_⟩
        rw [← mul_cond_succ d e b f heb]
        exact (spre.trans s9).trans hrest

end Day23

namespace Day23

theorem dvd_cond_succ (d b f : ℤ) (hdb : d < b) :
    (if divisorInRange (d + 1) (b - 1) b then (0 : ℤ)
     else if d ∣ b then 0 else f) =
    (if divisorInRange d (b - 1) b then 0 else f) := by
  by_cases hdvd : d ∣ b
  · rw [if_pos hdvd, dvd_cond_found d b f hdvd hdb]
    split <;> rfl
  · rw [if_neg hdvd]
    exact dvd_cond_skip d b f hdvd

theorem cfg_step_stop (p : List Instruction) (ip : ℕ) (r : Regs) (mc : ℕ)
    (hf : p[ip]? = none) :
    (cfg p ip r mc).step = some ⟨p, .stopped, ip, r, mc⟩ := by
  unfold Machine.step
  simp only [cfg, ne_eq, not_true_eq_false, reduceIte, hf]

theorem unopt_outer :
    ∀ (n : ℕ) (a b c d e f g h : ℤ) (mc : ℕ),
      2 ≤ d → d < b → (b - 1) * (b - 1) ≤ maxI64 → (b - d).toNat = n →
      ∃ mc', Reaches (cfg progC1 0 ⟨a, b, c, d, e, f, g, h⟩ mc)
        (cfg progC1 14 ⟨a, b, c, b, b,
          (if divisorInRange d (b - 1) b then 0 else f), 0, h⟩ mc') := by
  intro n
  induction n with
  | zero =>
      intro a b c d e f g h mc h2d hdb hbb hn
      exact absurd hn (by omega)
  | succ n ih =>
      intro a b c d e f g h mc h2d hdb hbb hn
      have hM : maxI64 = 2 ^ 63 - 1 := rfl
      have hm : minI64 = -(2 ^ 63) := rfl
      have hble : b ≤ maxI64 := b_le_max (by omega) hbb
      have s0 : Reaches (cfg progC1 0 ⟨a, b, c, d, e, f, g, h⟩ mc)
          (cfg progC1 1 ⟨a, b, c, d, 2, f, g, h⟩ mc) :=
        Reaches.single rfl
          (cfg_step_set progC1 0 ⟨a, b, c, d, e, f, g, h⟩ mc .E (.value 2)
            (by decide))
      obtain ⟨mc1, hinner⟩ := unopt_inner ((b - 2).toNat) a b c d 2 f g h mc
        (le_refl 2) (by omega) h2d (by omega) hbb rfl
      have hfe : (⟨a, b, c, d, b, (if hitInRange d 2 (b - 1) b then 0 else f),
          0, h⟩ : Regs) =
          ⟨a, b, c, d, b, (if d ∣ b then 0 else f), 0, h⟩ := by
        rw [if_congr (mul_cond_iff_dvd d b h2d hdb) rfl rfl]
      have hinner2 := hfe ▸ hinner
      have s10 : Reaches (cfg progC1 10 ⟨a, b, c, d, b,
            (if d ∣ b then 0 else f), 0, h⟩ mc1)
          (cfg progC1 11 ⟨a, b, c, d + 1, b,
            (if d ∣ b then 0 else f), 0, h⟩ mc1) :=
        Reaches.single rfl
          (cfg_step_sub progC1 10 ⟨a, b, c, d, b,
              (if d ∣ b then 0 else f), 0, h⟩ mc1 .D (.value (-1))
            (by decide) (show inI64 (d - -1) from ⟨by omega, by omega⟩))
      have s11 : Reaches (cfg progC1 11 ⟨a, b, c, d + 1, b,
            (if d ∣ b then 0 else f), 0, h⟩ mc1)
          (cfg progC1 12 ⟨a, b, c, d + 1, b,
            (if d ∣ b then 0 else f), d + 1, h⟩ mc1) :=
        Reaches.single rfl
          (cfg_step_set progC1 11 ⟨a, b, c, d + 1, b,
              (if d ∣ b then 0 else f), 0, h⟩ mc1 .G (.reg .D) (by decide))
      have s12 : Reaches (cfg progC1 12 ⟨a, b, c, d + 1, b,
            (if d ∣ b then 0 else f), d + 1, h⟩ mc1)
          (cfg progC1 13 ⟨a, b, c, d + 1, b,
            (if d ∣ b then 0 else f), d + 1 - b, h⟩ mc1) :=
        Reaches.single rfl
          (cfg_step_sub progC1 12 ⟨a, b, c, d + 1, b,
              (if d ∣ b then 0 else f), d + 1, h⟩ mc1 .G (.reg .B)
            (by decide) (show inI64 (d + 1 - b) from ⟨by omega, by omega⟩))
      have spre := ((s0.trans (hinner2.trans s10)).trans s11).trans s12
      by_cases hlast : d + 1 = b
      · refine ⟨mc1, ?_⟩
        have s13 : Reaches (cfg progC1 13 ⟨a, b, c, d + 1, b,
              (if d ∣ b then 0 else f), d + 1 - b, h⟩ mc1)
            (cfg progC1 14 ⟨a, b, c, d + 1, b,
              (if d ∣ b then 0 else f), d + 1 - b, h⟩ mc1) :=
          Reaches.single rfl
            (cfg_step_jnz_skip progC1 13 ⟨a, b, c, d + 1, b,
                (if d ∣ b then 0 else f), d + 1 - b, h⟩ mc1 (.reg .G)
              (.value (-13)) (by decide)
              (show d + 1 - b = 0 from by omega))
        have hregs : (⟨a, b, c, d + 1, b, (if d ∣ b then 0 else f),
            d + 1 - b, h⟩ : Regs) = ⟨a, b, c, b, b,
            (if divisorInRange d (b - 1) b then 0 else f), 0, h⟩ := by
          rw [dvd_cond_last d b f hlast, hlast, sub_self]
        exact hregs ▸ (spre.trans s13)
      · have s13 : Reaches (cfg progC1 13 ⟨a, b, c, d + 1, b,
              (if d ∣ b then 0 else f), d + 1 - b, h⟩ mc1)
            (cfg progC1 0 ⟨a, b, c, d + 1, b,
              (if d ∣ b then 0 else f), d + 1 - b, h⟩ mc1) :=
          Reaches.single rfl
            (cfg_step_jnz_taken progC1 13 0 ⟨a, b, c, d + 1, b,
                (if d ∣ b then 0 else f), d + 1 - b, h⟩ mc1 (.reg .G)
              (.value (-13)) (by decide)
              (show d + 1 - b ≠ 0 from by omega)
              (show ((13 : ℕ) : ℤ) + (-13) = ((0 : ℕ) : ℤ) from by norm_num)
              (by decide) (by decide))
        obtain ⟨mc', hrest⟩ := ih a b c (d + 1) b (if d ∣ b then 0 else f)
          (d + 1 - b) h mc1 (by omega) (by omega) hbb (by omega)
        refine ⟨mc', ?_⟩
        rw [← dvd_cond_succ d b f hdb]
        exact (spre.trans s13).trans hrest

theorem unopt_run (a b c d e f g h : ℤ) (h2d : 2 ≤ d) (hdb : d < b)
    (hbb : (b - 1) * (b - 1) ≤ maxI64) :
    ∃ mc', Reaches (cfg progC1 0 ⟨a, b, c, d, e, f, g, h⟩ 0)
      ⟨progC1, .stopped, 15, ⟨0, b, c, b, b,
        (if divisorInRange d (b - 1) b then 0 else f), 0, h⟩, mc'⟩ := by
  obtain ⟨mc', houter⟩ := unopt_outer ((b - d).toNat) a b c d e f g h 0 h2d
    hdb hbb rfl
  refine ⟨mc', ?_⟩
  have s14 : Reaches (cfg progC1 14 ⟨a, b, c, b, b,
        (if divisorInRange d (b - 1) b then 0 else f), 0, h⟩ mc')
      (cfg progC1 15 ⟨0, b, c, b, b,
        (if divisorInRange d (b - 1) b then 0 else f), 0, h⟩ mc') :=
    Reaches.single rfl
      (cfg_step_set progC1 14 ⟨a, b, c, b, b,
          (if divisorInRange d (b - 1) b then 0 else f), 0, h⟩ mc' .A
        (.value 0) (by decide))
  have s15 : Reaches (cfg progC1 15 ⟨0, b, c, b, b,
        (if divisorInRange d (b - 1) b then 0 else f), 0, h⟩ mc')
      ⟨progC1, .stopped, 15, ⟨0, b, c, b, b,
        (if divisorInRange d (b - 1) b then 0 else f), 0, h⟩, mc'⟩ :=
    Reaches.single rfl
      (cfg_step_stop progC1 15 ⟨0, b, c, b, b,
          (if divisorInRange d (b - 1) b then 0 else f), 0, h⟩ mc'
        (by decide))
  exact (houter.trans s14).trans s15

end Day23

namespace Day23

theorem opt_loop :
    ∀ (n : ℕ) (a b c d e f g h : ℤ) (mc : ℕ),
      2 ≤ d → d < b → b ≤ maxI64 → (b - d).toNat = n →
      ∃ dv mc', Reaches (cfg progC1opt 0 ⟨a, b, c, d, e, f, g, h⟩ mc)
        (cfg progC1opt 9 ⟨a, b, c, dv, e,
          (if divisorInRange d (b - 1) b then 0 else f), 0, h⟩ mc') := by
  intro n
  induction n with
  | zero =>
      intro a b c d e f g h mc h2d hdb hble hn
      exact absurd hn (by omega)
  | succ n ih =>
      intro a b c d e f g h mc h2d hdb hble hn
      have hM : maxI64 = 2 ^ 63 - 1 := rfl
      have hm : minI64 = -(2 ^ 63) := rfl
      have s0 : Reaches (cfg progC1opt 0 ⟨a, b, c, d, e, f, g, h⟩ mc)
          (cfg progC1opt 1 ⟨a, b, c, d, e, f, b, h⟩ mc) :=
        Reaches.single rfl
          (cfg_step_set progC1opt 0 ⟨a, b, c, d, e, f, g, h⟩ mc .G (.reg .B)
            (by decide))
      have s1 : Reaches (cfg progC1opt 1 ⟨a, b, c, d, e, f, b, h⟩ mc)
          (cfg progC1opt 2 ⟨a, b, c, d, e, f, Int.tmod b d, h⟩ mc) :=
        Reaches.single rfl
          (cfg_step_mod progC1opt 1 ⟨a, b, c, d, e, f, b, h⟩ mc .G (.reg .D)
            (by decide) (show d ≠ 0 from by omega)
            (show ¬ (b = minI64 ∧ d = -1) from by
              rintro ⟨-, h2⟩
              omega))
      by_cases hdvd : d ∣ b
      · have htm : Int.tmod b d = 0 :=
          tmod_eq_zero_of_dvd hdvd (by omega) (by omega)
        have s2 : Reaches (cfg progC1opt 2 ⟨a, b, c, d, e, f, Int.tmod b d, h⟩ mc)
            (cfg progC1opt 3 ⟨a, b, c, d, e, f, Int.tmod b d, h⟩ mc) :=
          Reaches.single rfl
            (cfg_step_jnz_skip progC1opt 2 ⟨a, b, c, d, e, f, Int.tmod b d, h⟩
              mc (.reg .G) (.value 3) (by decide)
              (show Int.tmod b d = 0 from htm))
        have s3 : Reaches (cfg progC1opt 3 ⟨a, b, c, d, e, f, Int.tmod b d, h⟩ mc)
            (cfg progC1opt 4 ⟨a, b, c, d, e, (0 : ℤ), Int.tmod b d, h⟩ mc) :=
          Reaches.single rfl
            (cfg_step_set progC1opt 3 ⟨a, b, c, d, e, f, Int.tmod b d, h⟩ mc
              .F (.value 0) (by decide))
        have s4 : Reaches (cfg progC1opt 4 ⟨a, b, c, d, e, (0 : ℤ), Int.tmod b d, h⟩ mc)
            (cfg progC1opt 8 ⟨a, b, c, d, e, (0 : ℤ), Int.tmod b d, h⟩ mc) :=
          Reaches.single rfl
            (cfg_step_jnz_taken progC1opt 4 8
              ⟨a, b, c, d, e, (0 : ℤ), Int.tmod b d, h⟩ mc (.value 1)
              (.value 4) (by decide) (show (1 : ℤ) ≠ 0 from by norm_num)
              (show ((4 : ℕ) : ℤ) + 4 = ((8 : ℕ) : ℤ) from by norm_num)
              (by decide) (by decide))
        have s8 : Reaches (cfg progC1opt 8 ⟨a, b, c, d, e, (0 : ℤ), Int.tmod b d, h⟩ mc)
            (cfg progC1opt 9 ⟨a, b, c, d, e, (0 : ℤ), Int.tmod b d, h⟩ mc) :=
          Reaches.single rfl
            (cfg_step_jnz_skip progC1opt 8
              ⟨a, b, c, d, e, (0 : ℤ), Int.tmod b d, h⟩ mc (.reg .G)
              (.value (-8)) (by decide) (show Int.tmod b d = 0 from htm))
        have hregs : (⟨a, b, c, d, e, (0 : ℤ), Int.tmod b d, h⟩ : Regs) =
            ⟨a, b, c, d, e, (if divisorInRange d (b - 1) b then 0 else f),
              0, h⟩ := by
          rw [dvd_cond_found d b f hdvd hdb, htm]
        exact ⟨d, mc, hregs ▸ ((((s0.trans s1).trans s2).trans s3).trans
          (s4.trans s8))⟩
      · have htm : Int.tmod b d ≠ 0 :=
          tmod_ne_zero_of_not_dvd hdvd (by omega) (by omega)
        have s2 : Reaches (cfg progC1opt 2 ⟨a, b, c, d, e, f, Int.tmod b d, h⟩ mc)
            (cfg progC1opt 5 ⟨a, b, c, d, e, f, Int.tmod b d, h⟩ mc) :=
          Reaches.single rfl
            (cfg_step_jnz_taken progC1opt 2 5
              ⟨a, b, c, d, e, f, Int.tmod b d, h⟩ mc (.reg .G) (.value 3)
              (by decide) (show Int.tmod b d ≠ 0 from htm)
              (show ((2 : ℕ) : ℤ) + 3 = ((5 : ℕ) : ℤ) from by norm_num)
              (by decide) (by decide))
        have s5 : Reaches (cfg progC1opt 5 ⟨a, b, c, d, e, f, Int.tmod b d, h⟩ mc)
            (cfg progC1opt 6 ⟨a, b, c, d + 1, e, f, Int.tmod b d, h⟩ mc) :=
          Reaches.single rfl
            (cfg_step_sub progC1opt 5 ⟨a, b, c, d, e, f, Int.tmod b d, h⟩ mc
              .D (.value (-1)) (by decide)
              (show inI64 (d - -1) from ⟨by omega, by omega⟩))
        have s6 : Reaches (cfg progC1opt 6 ⟨a, b, c, d + 1, e, f, Int.tmod b d, h⟩ mc)
            (cfg progC1opt 7 ⟨a, b, c, d + 1, e, f, d + 1, h⟩ mc) :=
          Reaches.single rfl
            (cfg_step_set progC1opt 6 ⟨a, b, c, d + 1, e, f, Int.tmod b d, h⟩
              mc .G (.reg .D) (by decide))
        have s7 : Reaches (cfg progC1opt 7 ⟨a, b, c, d + 1, e, f, d + 1, h⟩ mc)
            (cfg progC1opt 8 ⟨a, b, c, d + 1, e, f, d + 1 - b, h⟩ mc) :=
          Reaches.single rfl
            (cfg_step_sub progC1opt 7 ⟨a, b, c, d + 1, e, f, d + 1, h⟩ mc .G
              (.reg .B) (by decide)
              (show inI64 (d + 1 - b) from ⟨by omega, by omega⟩))
        have spre := (((s0.trans s1).trans s2).trans (s5.trans s6)).trans s7
        by_cases hlast : d + 1 = b
        · have hnodiv : ¬ divisorInRange d (b - 1) b := by
            rintro ⟨k, hk, hdk⟩
            have hk2 := Finset.mem_Icc.mp hk
            have hke : k = d := by omega
            rw [hke] at hdk
            exact hdvd hdk
          have s8 : Reaches (cfg progC1opt 8 ⟨a, b, c, d + 1, e, f, d + 1 - b, h⟩ mc)
              (cfg progC1opt 9 ⟨a, b, c, d + 1, e, f, d + 1 - b, h⟩ mc) :=
            Reaches.single rfl
              (cfg_step_jnz_skip progC1opt 8
                ⟨a, b, c, d + 1, e, f, d + 1 - b, h⟩ mc (.reg .G)
                (.value (-8)) (by decide)
                (show d + 1 - b = 0 from by omega))
          have hregs : (⟨a, b, c, d + 1, e, f, d + 1 - b, h⟩ : Regs) =
              ⟨a, b, c, b, e,
                (if divisorInRange d (b - 1) b then 0 else f), 0, h⟩ := by
            rw [hlast, sub_self, if_neg hnodiv]
          exact ⟨b, mc, hregs ▸ (spre.trans s8)⟩
        · have s8 : Reaches (cfg progC1opt 8 ⟨a, b, c, d + 1, e, f, d + 1 - b, h⟩ mc)
              (cfg progC1opt 0 ⟨a, b, c, d + 1, e, f, d + 1 - b, h⟩ mc) :=
            Reaches.single rfl
              (cfg_step_jnz_taken progC1opt 8 0
                ⟨a, b, c, d + 1, e, f, d + 1 - b, h⟩ mc (.reg .G)
                (.value (-8)) (by decide)
                (show d + 1 - b ≠ 0 from by omega)
                (show ((8 : ℕ) : ℤ) + (-8) = ((0 : ℕ) : ℤ) from by norm_num)
                (by decide) (by decide))
          obtain ⟨dv, mc', hrest⟩ := ih a b c (d + 1) e f (d + 1 - b) h mc
            (by omega) (by omega) hble (by omega)
          refine ⟨dv, mc', ?_⟩
          rw [← dvd_cond_skip d b f hdvd]
          exact (spre.trans s8).trans hrest

theorem opt_run (a b c d e f g h : ℤ) (h2d : 2 ≤ d) (hdb : d < b)
    (hbb : (b - 1) * (b - 1) ≤ maxI64) :
    ∃ dv mc', Reaches (cfg progC1opt 0 ⟨a, b, c, d, e, f, g, h⟩ 0)
      ⟨progC1opt, .stopped, 10, ⟨0, b, c, dv, e,
        (if divisorInRange d (b - 1) b then 0 else f), 0, h⟩, mc'⟩ := by
  obtain ⟨dv, mc', hloop⟩ := opt_loop ((b - d).toNat) a b c d e f g h 0 h2d
    hdb (b_le_max (by omega) hbb) rfl
  refine ⟨dv, mc', ?_⟩
  have s9 : Reaches (cfg progC1opt 9 ⟨a, b, c, dv, e,
        (if divisorInRange d (b - 1) b then 0 else f), 0, h⟩ mc')
      (cfg progC1opt 10 ⟨0, b, c, dv, e,
        (if divisorInRange d (b - 1) b then 0 else f), 0, h⟩ mc') :=
    Reaches.single rfl
      (cfg_step_set progC1opt 9 ⟨a, b, c, dv, e,
          (if divisorInRange d (b - 1) b then 0 else f), 0, h⟩ mc' .A
        (.value 0) (by decide))
  have s10 : Reaches (cfg progC1opt 10 ⟨0, b, c, dv, e,
        (if divisorInRange d (b - 1) b then 0 else f), 0, h⟩ mc')
      ⟨progC1opt, .stopped, 10, ⟨0, b, c, dv, e,
        (if divisorInRange d (b - 1) b then 0 else f), 0, h⟩, mc'⟩ :=
    Reaches.single rfl
      (cfg_step_stop progC1opt 10 ⟨0, b, c, dv, e,
          (if divisorInRange d (b - 1) b then 0 else f), 0, h⟩ mc'
        (by decide))
  exact (hloop.trans s9).trans s10

end Day23

/-- Counterexample for C1: `progC1` (the idiom plus one padding instruction)
is rewritten by `optimize` into `progC1opt`, but from initial registers
`b = 4, d = 2` (both runs terminating) the final register states differ: the
original ends with `d = 4, e = 4` while the optimized program ends with
`d = 2` (it exits at the first divisor) and `e = 0` (the replacement never
touches `e`). -/
theorem optimize_changes_final_registers :
    Day23.optimize Day23.progC1 = some Day23.progC1opt ∧
    (Day23.Machine.run 300
        (Day23.cfg Day23.progC1 0 ⟨0, 4, 0, 2, 0, 1, 0, 0⟩ 0)).map
        (fun m => (m.state, m.registers.d, m.registers.e)) =
      some (.stopped, 4, 4) ∧
    (Day23.Machine.run 300
        (Day23.cfg Day23.progC1opt 0 ⟨0, 4, 0, 2, 0, 1, 0, 0⟩ 0)).map
        (fun m => (m.state, m.registers.d, m.registers.e)) =
      some (.stopped, 2, 0) := by
  refine ⟨by decide, by decide, by decide⟩

/-- Claim C1, amended: for the program consisting of the 14-instruction idiom
plus one trailing instruction (on which `optimize` fires at offset 0,
producing the replacement plus the unchanged trailing instruction), and for
every initial register file with `2 ≤ d < b` and `(b-1)²` within `i64` range,
both the original and the optimized program run to a `Stopped` state and the
final register states agree on every register except the loop counters `d`
and `e`; the original ends with `d = e = b`, while the optimized program may
stop `d` at the first divisor of `b` and never touches `e`.  (In particular
`f` — the only register the surrounding day-23 program reads back — and `g`
agree.) -/
theorem optimize_equiv_except_loop_counters (r : Day23.Regs)
    (h2d : 2 ≤ r.d) (hdb : r.d < r.b)
    (hbb : (r.b - 1) * (r.b - 1) ≤ maxI64) :
    Day23.optimize Day23.progC1 = some Day23.progC1opt ∧
    ∃ fuel1 m1 fuel2 m2,
      Day23.Machine.run fuel1 (Day23.cfg Day23.progC1 0 r 0) = some m1 ∧
      m1.state = .stopped ∧
      Day23.Machine.run fuel2 (Day23.cfg Day23.progC1opt 0 r 0) = some m2 ∧
      m2.state = .stopped ∧
      (∀ reg, reg ≠ Day23.Reg.D → reg ≠ Day23.Reg.E →
        m1.registers.get reg = m2.registers.get reg) ∧
      m1.registers.e = r.b ∧ m1.registers.d = r.b := by
  obtain ⟨a, b, c, d, e, f, g, h⟩ := r
  dsimp only at h2d hdb hbb ⊢
  refine ⟨by decide, ?_⟩
  obtain ⟨mc1, hrun1⟩ := Day23.unopt_run a b c d e f g h h2d hdb hbb
  obtain ⟨dv, mc2, hrun2⟩ := Day23.opt_run a b c d e f g h h2d hdb hbb
  obtain ⟨fuel1, hf1⟩ := Day23.run_of_reaches hrun1 (by
    intro hx
    exact Day23.MState.noConfusion hx)
  obtain ⟨fuel2, hf2⟩ := Day23.run_of_reaches hrun2 (by
    intro hx
    exact Day23.MState.noConfusion hx)
  refine ⟨fuel1, _, fuel2, _, hf1, rfl, hf2, rfl, ?_, rfl, rfl⟩
  intro reg hD hE
  cases reg with
  | A => rfl
  | B => rfl
  | C => rfl
  | D => exact absurd rfl hD
  | E => exact absurd rfl hE
  | F => rfl
  | G => rfl
  | H => rfl

/-- Witness for C1 (amended) at `b = 7, d = 2`. -/
theorem optimize_equiv_except_loop_counters_witness :
    Day23.optimize Day23.progC1 = some Day23.progC1opt ∧
    ∃ fuel1 m1 fuel2 m2,
      Day23.Machine.run fuel1
        (Day23.cfg Day23.progC1 0 ⟨0, 7, 0, 2, 0, 1, 0, 0⟩ 0) = some m1 ∧
      m1.state = .stopped ∧
      Day23.Machine.run fuel2
        (Day23.cfg Day23.progC1opt 0 ⟨0, 7, 0, 2, 0, 1, 0, 0⟩ 0) = some m2 ∧
      m2.state = .stopped ∧
      (∀ reg, reg ≠ Day23.Reg.D → reg ≠ Day23.Reg.E →
        m1.registers.get reg = m2.registers.get reg) ∧
      m1.registers.e = 7 ∧ m1.registers.d = 7 :=
  optimize_equiv_except_loop_counters ⟨0, 7, 0, 2, 0, 1, 0, 0⟩ (by decide)
    (by decide) (by decide)
